import Mathlib

/-!
# Proton web server: configuration parser, accept handler, worker and signal handler

A shallow embedding of `src/config/config_parser.c`, `src/core/worker.c` and
`src/core/proton.c`.  C strings are lists of characters without the terminating
NUL; `int` values are integers; calls into the operating system and into the
modules of the server that are not part of these three files are answered by an
explicit environment and recorded in a trace.
-/

namespace Proton

/-! ## C library functions used by the parser -/

/-- The `isspace` of the C locale: space, `\t`, `\n`, `\v`, `\f`, `\r`. -/
def isspace (c : Char) : Bool :=
  c == ' ' || c == '\t' || c == '\n' || c == Char.ofNat 11 || c == Char.ofNat 12 || c == '\r'

/-- The `isdigit` of the C locale. -/
def isdigit (c : Char) : Bool := 48 ≤ c.toNat && c.toNat ≤ 57

/-- The bytes of a buffer seen as a C string: everything before the first NUL. -/
def cstr (buf : List Char) : List Char := buf.takeWhile (fun c => c != Char.ofNat 0)

/-- `strchr(s, c)`: the suffix of `s` that starts at the first occurrence of `c`,
or `none` (the null pointer) when `c` does not occur. -/
def strchr : List Char → Char → Option (List Char)
  | [], _ => none
  | x :: xs, c => if x = c then some (x :: xs) else strchr xs c

/-- `strncmp(line, lit, strlen(lit)) == 0` for a literal `lit`: `lit` is a prefix of `line`. -/
def starts_with (line lit : List Char) : Bool := lit.isPrefixOf line

/-- Conversion of a `long` to `int` by truncation to 32 bits (two's complement). -/
def to_int (x : Int) : Int := (x + 2 ^ 31) % 2 ^ 32 - 2 ^ 31

/-- Saturation of `strtol` to the range of a 64-bit `long`. -/
def clamp_long (x : Int) : Int :=
  if x < -(2 ^ 63) then -(2 ^ 63) else if 2 ^ 63 - 1 < x then 2 ^ 63 - 1 else x

/-- The value of the longest prefix of decimal digits, accumulated left to right. -/
def atoi_digits : List Char → Nat → Nat
  | [], acc => acc
  | c :: cs, acc => if isdigit c then atoi_digits cs (acc * 10 + (c.toNat - 48)) else acc

/-- `atoi(s)`, that is `(int) strtol(s, NULL, 10)`: leading white space is skipped, an
optional sign is read, then the longest run of digits; an out-of-range value
saturates as a `long` and is truncated to `int`. -/
def atoi (s : List Char) : Int :=
  match s.dropWhile isspace with
  | '-' :: r => to_int (clamp_long (-(atoi_digits r 0 : Int)))
  | '+' :: r => to_int (clamp_long (atoi_digits r 0 : Int))
  | r => to_int (clamp_long (atoi_digits r 0 : Int))

/-- One pass of `fgets` over the unread part of the stream with room for `n`
characters: the characters stored in the buffer and the part left unread.
Reading stops after a newline, at the end of the stream, or when the room is used up. -/
def fgets_read : Nat → List Char → List Char × List Char
  | 0, s => ([], s)
  | _ + 1, [] => ([], [])
  | n + 1, c :: cs =>
    if c = '\n' then ([c], cs)
    else ((c :: (fgets_read n cs).1), (fgets_read n cs).2)

/-- `fgets(buf, size, fp)`: `none` at the end of the stream, otherwise the
characters read (at most `size - 1`) and the rest of the stream. -/
def fgets (size : Nat) (fp : List Char) : Option (List Char × List Char) :=
  if fp = [] then none else some (fgets_read (size - 1) fp)

/-! ## `config_parser.c` -/

/-- `trim(str)` (`config_parser.c`, lines 9-26): leading white space is removed; then trailing white space is
overwritten with NUL from the end, the pointer never moving below the first
character (`end > str`). -/
def trim (str : List Char) : List Char :=
  match str.dropWhile isspace with
  | [] => []
  | c :: cs => c :: cs.rdropWhile isspace

/-- `parse_int(value, default_value)` (lines 28-36) for a non-null `value`. -/
def parse_int (value : List Char) (_default_value : Int) : Int :=
  if value = "auto".toList then 0 else atoi value

/-- The fields of `proton_config_t` that the parser writes. -/
structure proton_config_t where
  worker_processes : Int
  worker_connections : Int
  listen_port : Int
  error_log : List Char
  access_log : List Char
  document_root : List Char
  deriving DecidableEq

/-- The configuration together with the two local block flags of the parse loop. -/
structure parse_state where
  config : proton_config_t
  in_http : Bool
  in_server : Bool
  deriving DecidableEq

/-- The defaults written right after `calloc` (on both paths of `proton_config_parse`). -/
def default_config : proton_config_t :=
  { worker_processes := 0
    worker_connections := 1024
    listen_port := 8080
    error_log := "stderr".toList
    access_log := "/dev/null".toList
    document_root := ".".toList }

/-- The value of a directive, as every directive branch computes it:
`value = strchr(line, ' ')`; when found, `value++; trim(value);` and the value is cut
at its first `;`.  `none` when the line has no space. -/
def directive_value (line : List Char) : Option (List Char) :=
  match strchr line ' ' with
  | none => none
  | some v => some ((trim v.tail).takeWhile (fun c => c != ';'))

/-- The body of the `while (fgets(...))` loop (lines 75-145) on one buffer. -/
def process_line (st : parse_state) (buf : List Char) : parse_state :=
  let line := trim (cstr buf)
  if line.head? = none || line.head? = some '#' then st
  else if starts_with line "worker_processes".toList then
    match directive_value line with
    | some v => { st with config := { st.config with worker_processes := parse_int v 0 } }
    | none => st
  else if starts_with line "worker_connections".toList then
    match directive_value line with
    | some v => { st with config := { st.config with worker_connections := atoi v } }
    | none => st
  else if starts_with line "listen".toList && st.in_server then
    match directive_value line with
    | some v => { st with config := { st.config with listen_port := atoi v } }
    | none => st
  else if starts_with line "error_log".toList then
    match directive_value line with
    | some v => { st with config := { st.config with error_log := v } }
    | none => st
  else if starts_with line "root".toList && st.in_server then
    match directive_value line with
    | some v => { st with config := { st.config with document_root := v } }
    | none => st
  -- `strcmp(line, "http {") == 0`
  else if line = "http \x7b".toList then { st with in_http := true }
  -- `strcmp(line, "server {") == 0 && in_http`
  else if line = "server \x7b".toList && st.in_http then { st with in_server := true }
  -- `strcmp(line, "}") == 0`
  else if line = "\x7d".toList then
    if st.in_server then { st with in_server := false }
    else if st.in_http then { st with in_http := false }
    else st
  else st

/-- The buffers that the successive `fgets(line, 1024, fp)` calls of the loop
return; `fuel` bounds the number of calls. -/
def read_lines : Nat → List Char → List (List Char)
  | 0, _ => []
  | fuel + 1, fp =>
    match fgets 1024 fp with
    | none => []
    | some (line, rest) => line :: read_lines fuel rest

/-- The parse loop over the buffers read, from a given state. -/
def run_lines (st : parse_state) (lines : List (List Char)) : parse_state :=
  lines.foldl process_line st

/-- The buffers read from a whole file: every call consumes at least one
character, so `fp.length` calls reach the end of the stream. -/
def file_lines (fp : List Char) : List (List Char) := read_lines fp.length fp

/-- The state before the first line: the defaults, `in_http = 0`, `in_server = 0`. -/
def initial_state : parse_state :=
  { config := default_config, in_http := false, in_server := false }

/-- A file system as `fopen(filename, "r")` sees it: the content of a file that
can be opened, `none` for one that cannot. -/
abbrev file_system := List Char → Option (List Char)

/-- `proton_config_parse(filename)` (lines 38-149); `calloc_ok` says whether `calloc` returns
memory, and `none` is the null pointer. -/
def proton_config_parse (fs : file_system) (calloc_ok : Bool) (filename : List Char) :
    Option proton_config_t :=
  match fs filename with
  | none => if calloc_ok then some default_config else none
  | some fp =>
    if calloc_ok then
      some (run_lines initial_state (file_lines fp)).config
    else none

/-! ## `proton.c`: the signal flags -/

/-- Signal numbers of `<signal.h>` (Linux values). -/
def SIGHUP : Int := 1
/-- Interrupt from the keyboard. -/
def SIGINT : Int := 2
/-- Termination request. -/
def SIGTERM : Int := 15
/-- Child stopped or terminated. -/
def SIGCHLD : Int := 17

/-- The two process-wide `volatile sig_atomic_t` flags. -/
structure signal_flags where
  proton_quit : Int
  proton_reload : Int
  deriving DecidableEq

/-- `signal_handler(signo)` (`proton.c`, lines 15-28): the `switch` over the signal
number. -/
def signal_handler (signo : Int) (f : signal_flags) : signal_flags :=
  if signo = SIGINT ∨ signo = SIGTERM then { f with proton_quit := 1 }
  else if signo = SIGHUP then { f with proton_reload := 1 }
  else if signo = SIGCHLD then f
  else f

/-- The flags after the handler ran for each signal of a list, in order. -/
def deliver (signals : List Int) (f : signal_flags) : signal_flags :=
  signals.foldl (fun g signo => signal_handler signo g) f

/-! ## `worker.c` -/

/-- Values of `<errno.h>` (Linux): `EAGAIN` and `EWOULDBLOCK` are the same number. -/
def EAGAIN : Int := 11
/-- See `EAGAIN`. -/
def EWOULDBLOCK : Int := 11
/-- Interrupted system call. -/
def EINTR : Int := 4

/-- Modelled from the spec: the status constant `PROTON_OK` is declared in
`proton.h`, which is not among the sources; it is the success status, taken as 0. -/
def PROTON_OK : Int := 0

/-- The calls that `worker.c` makes to the operating system and to the other
modules, in the order they are made; `read_quit` is one evaluation of the
loop condition `!proton_quit`, and `conn_closed` a connection that the protocol
module closes and unregisters during a dispatch. -/
inductive action where
  | socket
  | setsockopt (fd : Int)
  | bind (fd : Int) (port : Int)
  | listen (fd : Int)
  | set_nonblocking (fd : Int)
  | accept (listen_fd : Int)
  | connection_create (fd : Int)
  | close (fd : Int)
  | event_loop_create (capacity : Int)
  | event_create (fd : Int)
  | event_add (fd : Int)
  | event_process
  | event_destroy (fd : Int)
  | event_loop_destroy
  | log_error
  | log_info
  | read_quit (quit : Bool)
  | conn_closed (fd : Int)
  deriving DecidableEq

/-- `set_nonblocking(fd)` given what the two `fcntl` calls return: `-1` when
`F_GETFL` fails, otherwise the result of `F_SETFL`. -/
def set_nonblocking (getfl_ret setfl_ret : Int) : Int :=
  if getfl_ret = -1 then -1 else setfl_ret

/-- What the operating system answers while the listening socket is set up. -/
structure socket_env where
  socket_ret : Int
  bind_ret : Int
  listen_ret : Int
  getfl_ret : Int
  setfl_ret : Int
  deriving DecidableEq

/-- `create_listen_socket(port)` (`worker.c`, lines 24-63): the value returned and
the calls made. -/
def create_listen_socket (env : socket_env) (port : Int) : Int × List action :=
  let fd := env.socket_ret
  if fd < 0 then (-1, [action.socket, action.log_error])
  else if env.bind_ret < 0 then
    (-1, [action.socket, action.setsockopt fd, action.bind fd port, action.log_error,
      action.close fd])
  else if env.listen_ret < 0 then
    (-1, [action.socket, action.setsockopt fd, action.bind fd port, action.listen fd,
      action.log_error, action.close fd])
  else if set_nonblocking env.getfl_ret env.setfl_ret < 0 then
    (-1, [action.socket, action.setsockopt fd, action.bind fd port, action.listen fd,
      action.set_nonblocking fd, action.log_error, action.close fd])
  else
    (fd, [action.socket, action.setsockopt fd, action.bind fd port, action.listen fd,
      action.set_nonblocking fd])

/-- What the environment answers in one turn of the drain loop: the result of
`accept` (return value and `errno`) and, for a valid descriptor, whether
`proton_http_connection_create` returns a connection. -/
structure accept_turn where
  client_fd : Int
  errno : Int
  conn_created : Bool
  deriving DecidableEq

/-- `accept_handler(ev)` (`worker.c`, lines 65-96) against a script of environment
answers: the status returned, the calls made and the unused rest of the script.  `none` when the
script ends while the `while (1)` loop is still running. -/
def accept_handler (listen_fd : Int) :
    List accept_turn → Option (Int × List action × List accept_turn)
  | [] => none
  | t :: rest =>
    if t.client_fd < 0 then
      if t.errno = EAGAIN ∨ t.errno = EWOULDBLOCK then
        some (PROTON_OK, [action.accept listen_fd], rest)
      else
        some (PROTON_OK, [action.accept listen_fd, action.log_error], rest)
    else if !t.conn_created then
      (accept_handler listen_fd rest).map fun r =>
        (r.1, [action.accept listen_fd, action.set_nonblocking t.client_fd,
          action.connection_create t.client_fd, action.log_error,
          action.close t.client_fd] ++ r.2.1, r.2.2)
    else
      (accept_handler listen_fd rest).map fun r =>
        (r.1, [action.accept listen_fd, action.set_nonblocking t.client_fd,
          action.connection_create t.client_fd, action.event_add t.client_fd] ++ r.2.1, r.2.2)

/-- What the environment decides for one turn of the worker's dispatch loop. -/
structure iteration where
  /-- Signals delivered to the process before the loop condition is evaluated. -/
  signals : List Int
  /-- Whether the dispatch finds the listening descriptor readable. -/
  listen_ready : Bool
  /-- The answers to the accept handler, when it runs. -/
  accepts : List accept_turn
  /-- Connections that the protocol module closes and unregisters in this pass. -/
  closed : List Int
  /-- Return value of `proton_event_process`. -/
  ret : Int
  /-- Value of `errno` after the call. -/
  errno : Int
  deriving DecidableEq

/-- Modelled from the spec: `proton_event_process` is defined in the event module,
which is not among the sources.  Following section 4.3 of the specification, one call
waits and then invokes the handler of each ready descriptor: the read handler
of the listening event is `accept_handler`; the handlers of connections belong
to the protocol module and are seen only through the connections they close.
`none` when the accept handler does not return. -/
def proton_event_process (listen_fd : Int) (it : iteration) : Option (List action) :=
  if it.listen_ready then
    (accept_handler listen_fd it.accepts).map fun r =>
      action.event_process :: (r.2.1 ++ it.closed.map action.conn_closed)
  else some (action.event_process :: it.closed.map action.conn_closed)

/-- The calls after the dispatch loop: log, then the cleanup. -/
def worker_cleanup (listen_fd : Int) : List action :=
  [action.log_info, action.event_destroy listen_fd, action.event_loop_destroy,
    action.close listen_fd]

/-- The outcome of one turn of `while (!proton_quit) { ... }`. -/
inductive loop_step where
  | exit (status : Int) (trace : List action)
  | next (flags : signal_flags) (trace : List action)
  | stuck
  deriving DecidableEq

/-- One turn of the dispatch loop of `proton_worker_process` (lines 123-129), with
the cleanup of lines 131-138 when the loop is left. -/
def loop_turn (listen_fd : Int) (flags : signal_flags) (it : iteration) : loop_step :=
  let flags1 := deliver it.signals flags
  if flags1.proton_quit ≠ 0 then
    loop_step.exit 0 (action.read_quit true :: worker_cleanup listen_fd)
  else
    match proton_event_process listen_fd it with
    | none => loop_step.stuck
    | some tr =>
      if it.ret < 0 ∧ it.errno ≠ EINTR then
        loop_step.exit 0 (action.read_quit false :: (tr ++ action.log_error :: worker_cleanup listen_fd))
      else loop_step.next flags1 (action.read_quit false :: tr)

/-- The dispatch loop and the cleanup that follows it: exit status and calls
made; `none` when the script of turns ends before the loop is left. -/
def worker_loop (listen_fd : Int) : signal_flags → List iteration → Option (Int × List action)
  | _, [] => none
  | flags, it :: rest =>
    match loop_turn listen_fd flags it with
    | loop_step.exit status tr => some (status, tr)
    | loop_step.next flags1 tr =>
      (worker_loop listen_fd flags1 rest).map fun r => (r.1, tr ++ r.2)
    | loop_step.stuck => none

/-- What the environment answers to one run of a worker. -/
structure worker_env where
  sock : socket_env
  /-- Whether `proton_event_loop_create` returns an event loop. -/
  loop_created : Bool
  /-- The flags when the worker starts. -/
  flags : signal_flags
  /-- The turns of the dispatch loop. -/
  turns : List iteration
  deriving DecidableEq

/-- `proton_worker_process(config)` (`worker.c`, lines 98-139): exit status and calls
made; `none` when the script of turns ends before the dispatch loop is left. -/
def proton_worker_process (env : worker_env) (config : proton_config_t) :
    Option (Int × List action) :=
  let r := create_listen_socket env.sock config.listen_port
  let listen_fd := r.1
  if listen_fd < 0 then some (1, r.2)
  else if !env.loop_created then
    some (1, r.2 ++ [action.event_loop_create config.worker_connections, action.log_error,
      action.close listen_fd])
  else
    (worker_loop listen_fd env.flags env.turns).map fun w =>
      (w.1, r.2 ++ [action.event_loop_create config.worker_connections,
        action.event_create listen_fd, action.event_add listen_fd, action.log_info] ++ w.2)

/-- The connections registered with the event loop and still open after a
trace: descriptors added by `event_add`, the listening one apart, less those
the protocol module closed. -/
def open_connections (listen_fd : Int) (tr : List action) : List Int :=
  tr.foldl (fun acc a =>
    match a with
    | action.event_add fd => if fd = listen_fd then acc else acc ++ [fd]
    | action.conn_closed fd => acc.erase fd
    | _ => acc) []

/-! ## Notions used to state the properties -/

/-- The directive name of a trimmed line in the sense of the grammar: the text
before the first white-space character or `;`. -/
def directive_name (line : List Char) : List Char :=
  line.takeWhile (fun c => !isspace c && c != ';')

/-- The five directive names that the parser looks for. -/
def directive_names : List (List Char) :=
  ["worker_processes".toList, "worker_connections".toList, "listen".toList,
    "error_log".toList, "root".toList]

/-- The three block lines. -/
def block_lines : List (List Char) := ["http \x7b".toList, "server \x7b".toList, "\x7d".toList]

/-- The number of `accept` calls in a trace. -/
def accept_calls (tr : List action) : Nat :=
  (tr.filter fun a => match a with
    | action.accept _ => true
    | _ => false).length

/-- The descriptors switched to non-blocking mode, in order. -/
def nonblocking_fds (tr : List action) : List Int :=
  tr.filterMap fun a => match a with
    | action.set_nonblocking fd => some fd
    | _ => none

/-- The descriptors handed to `proton_http_connection_create`, in order. -/
def created_fds (tr : List action) : List Int :=
  tr.filterMap fun a => match a with
    | action.connection_create fd => some fd
    | _ => none

/-- The descriptors whose event is registered by `proton_event_add`, in order. -/
def registered_fds (tr : List action) : List Int :=
  tr.filterMap fun a => match a with
    | action.event_add fd => some fd
    | _ => none

/-- The descriptors closed by `close`, in order. -/
def closed_fds (tr : List action) : List Int :=
  tr.filterMap fun a => match a with
    | action.close fd => some fd
    | _ => none

/-- The calls of the drain loop for one accepted descriptor. -/
def accepted_segment (listen_fd : Int) (t : accept_turn) : List action :=
  [action.accept listen_fd, action.set_nonblocking t.client_fd,
    action.connection_create t.client_fd] ++
  (if t.conn_created = true then [action.event_add t.client_fd]
   else [action.log_error, action.close t.client_fd])

/-- A worker whose set-up succeeds on descriptor 3; in the first turn three
connections (descriptors 5, 6, 7) are accepted and registered; before the second
turn `SIGTERM` is delivered. -/
def three_connections_then_quit : worker_env :=
  { sock := { socket_ret := 3, bind_ret := 0, listen_ret := 0, getfl_ret := 2, setfl_ret := 0 }
    loop_created := true
    flags := { proton_quit := 0, proton_reload := 0 }
    turns :=
      [ { signals := [], listen_ready := true,
          accepts := [ { client_fd := 5, errno := 0, conn_created := true },
                       { client_fd := 6, errno := 0, conn_created := true },
                       { client_fd := 7, errno := 0, conn_created := true },
                       { client_fd := -1, errno := 11, conn_created := false } ],
          closed := [], ret := 1, errno := 0 },
        { signals := [15], listen_ready := false, accepts := [], closed := [],
          ret := 0, errno := 0 } ] }

/-- The calls of the worker in `three_connections_then_quit` up to the moment the
loop condition sees `proton_quit` set. -/
def three_connections_calls : List action :=
  [action.socket, action.setsockopt 3, action.bind 3 8080, action.listen 3,
    action.set_nonblocking 3, action.event_loop_create 1024, action.event_create 3,
    action.event_add 3, action.log_info, action.read_quit false, action.event_process,
    action.accept 3, action.set_nonblocking 5, action.connection_create 5,
    action.event_add 5, action.accept 3, action.set_nonblocking 6,
    action.connection_create 6, action.event_add 6, action.accept 3,
    action.set_nonblocking 7, action.connection_create 7, action.event_add 7,
    action.accept 3]

/-- White space allowed around a directive on its line: `isspace` characters
other than the newline. -/
def is_padding (ws : List Char) : Bool := ws.all fun c => isspace c && c != '\n'

/-- A directive text with white space before and after it. -/
def padded (lead trail : Nat → List Char) (i : Nat) (text : List Char) : List Char :=
  lead i ++ text ++ trail i

/-- The eight lines of the round-trip file, without their newlines; `lead i` and
`trail i` are the white space around the text of line `i`. -/
def round_trip_lines (a b p : Nat) (r : List Char) (lead trail : Nat → List Char) :
    List (List Char) :=
  [ padded lead trail 0 ("worker_processes ".toList ++ (Nat.repr a).toList ++ ";".toList),
    padded lead trail 1 ("worker_connections ".toList ++ (Nat.repr b).toList ++ ";".toList),
    padded lead trail 2 "http \x7b".toList,
    padded lead trail 3 "server \x7b".toList,
    padded lead trail 4 ("listen ".toList ++ (Nat.repr p).toList ++ ";".toList),
    padded lead trail 5 ("root ".toList ++ r ++ ";".toList),
    padded lead trail 6 "\x7d".toList,
    padded lead trail 7 "\x7d".toList ]

/-- The content of a file made of the given lines, a newline after each; the
newline after the last line is written only when `final_newline` is set. -/
def join_lines : List (List Char) → Bool → List Char
  | [], _ => []
  | [l], final_newline => if final_newline then l ++ ['\n'] else l
  | l :: l2 :: ls, final_newline => l ++ '\n' :: join_lines (l2 :: ls) final_newline

/-- A directive text as it stands on a line: not empty, no white space at either
end, no NUL and no newline inside. -/
def clean_text (t : List Char) : Bool :=
  !t.isEmpty && t.head?.all (fun c => !isspace c) && t.getLast?.all (fun c => !isspace c) &&
    t.all (fun c => c != Char.ofNat 0 && c != '\n')

/-- The lines of a file as text, whatever their length: the file cut after every
newline, each line with its newline, the last one without when the file does not
end with a newline. -/
def text_lines : List Char → List (List Char)
  | [] => []
  | c :: cs =>
    if c = '\n' then [c] :: text_lines cs
    else
      match text_lines cs with
      | [] => [[c]]
      | l :: ls => (c :: l) :: ls

/-- A file of one line, 1043 characters long: `listen`, 1017 spaces,
`worker_processes 5;`. -/
def long_listen_file : List Char :=
  "listen".toList ++ List.replicate 1017 ' ' ++ "worker_processes 5;\n".toList

/-- A file of four lines, the second being 1023 times `x` followed by `server {`. -/
def long_junk_file : List Char :=
  "http \x7b\n".toList ++ (List.replicate 1023 'x' ++
    "server \x7b\nlisten 81;\nroot /x;\n".toList)

/-- A file of eight lines: a server block in an http block with a nested block,
then a line of 1023 times `x` followed by `server {`, then `listen 81;`. -/
def nested_long_file : List Char :=
  "http \x7b\nserver \x7b\nlocation / \x7b\n\x7d\n".toList ++ (List.replicate 1023 'x' ++
    "server \x7b\nlisten 81;\n\x7d\n\x7d\n".toList)

/-! ## Properties of the parser -/

theorem starts_with_iff (line lit : List Char) :
    starts_with line lit = true ↔ ∃ r, line = lit ++ r := by
  unfold starts_with
  rw [List.isPrefixOf_iff_prefix]
  constructor
  · rintro ⟨r, h⟩; exact ⟨r, h.symm⟩
  · rintro ⟨r, h⟩; exact ⟨r, h.symm⟩

theorem run_lines_append (st : parse_state) (xs ys : List (List Char)) :
    run_lines st (xs ++ ys) = run_lines (run_lines st xs) ys := by
  simp [run_lines, List.foldl_append]

theorem run_lines_cons (st : parse_state) (x : List Char) (xs : List (List Char)) :
    run_lines st (x :: xs) = run_lines (process_line st x) xs := rfl

theorem run_lines_nil (st : parse_state) : run_lines st [] = st := rfl

/-- A line that begins with `listen` or `root`, read outside a server block,
changes nothing. -/
theorem process_line_listen_root (st : parse_state) (buf : List Char)
    (hs : st.in_server = false)
    (hl : starts_with (trim (cstr buf)) "listen".toList = true ∨
      starts_with (trim (cstr buf)) "root".toList = true) :
    process_line st buf = st := by
  unfold process_line
  rcases hl with hl | hl
  · obtain ⟨r, hr⟩ := (starts_with_iff _ _).1 hl
    simp [hr, hs, starts_with]
  · obtain ⟨r, hr⟩ := (starts_with_iff _ _).1 hl
    simp [hr, hs, starts_with]

/-- Outside a server block a line that does not open one keeps `in_server`
clear and leaves `listen_port` and `document_root` as they are. -/
theorem process_line_outside_server (st : parse_state) (buf : List Char)
    (hs : st.in_server = false)
    (hl : ¬ (st.in_http = true ∧ trim (cstr buf) = "server \x7b".toList)) :
    (process_line st buf).in_server = false ∧
      (process_line st buf).config.listen_port = st.config.listen_port ∧
      (process_line st buf).config.document_root = st.config.document_root := by
  unfold process_line
  dsimp only
  generalize trim (cstr buf) = line at hl
  generalize directive_value line = dv
  generalize starts_with line "worker_processes".toList = b1
  generalize starts_with line "worker_connections".toList = b2
  generalize starts_with line "listen".toList = b3
  generalize starts_with line "error_log".toList = b4
  generalize starts_with line "root".toList = b5
  generalize "http \x7b".toList = s1
  generalize "server \x7b".toList = s2 at hl
  generalize "\x7d".toList = s3
  rcases st with ⟨cfg, h, s⟩
  simp only at hs
  subst hs
  cases dv <;> cases b1 <;> cases b2 <;> cases b4 <;> cases h <;>
    simp at hl ⊢ <;> split_ifs <;> simp_all

/-- A `}` line clears `in_server` when it is set and otherwise clears `in_http`. -/
theorem process_line_close (st : parse_state) (buf : List Char)
    (hl : trim (cstr buf) = "\x7d".toList) :
    process_line st buf =
      if st.in_server = true then { st with in_server := false }
      else { st with in_http := false } := by
  unfold process_line
  rw [hl]
  rcases st with ⟨cfg, h, s⟩
  cases h <;> cases s <;> simp [starts_with, List.isPrefixOf]

/-- Every line keeps the invariant that `in_server` implies `in_http`. -/
theorem process_line_flags (st : parse_state) (buf : List Char)
    (h : st.in_server = true → st.in_http = true) :
    (process_line st buf).in_server = true → (process_line st buf).in_http = true := by
  unfold process_line
  dsimp only
  generalize trim (cstr buf) = line
  generalize directive_value line = dv
  generalize starts_with line "worker_processes".toList = b1
  generalize starts_with line "worker_connections".toList = b2
  generalize starts_with line "listen".toList = b3
  generalize starts_with line "error_log".toList = b4
  generalize starts_with line "root".toList = b5
  generalize "http \x7b".toList = s1
  generalize "server \x7b".toList = s2
  generalize "\x7d".toList = s3
  rcases st with ⟨cfg, hh, s⟩
  cases dv <;> cases b1 <;> cases b2 <;> cases b3 <;> cases b4 <;> cases b5 <;>
    cases hh <;> cases s <;> simp at h ⊢ <;> split_ifs <;> simp_all

theorem run_lines_flags (lines : List (List Char)) (st : parse_state)
    (h : st.in_server = true → st.in_http = true) :
    (run_lines st lines).in_server = true → (run_lines st lines).in_http = true := by
  induction lines generalizing st with
  | nil => exact h
  | cons l ls ih => exact ih (process_line st l) (process_line_flags st l h)

/-- As long as no `server {` line is read inside an open http block, the parser stays
outside server blocks and the two server fields keep their values. -/
theorem run_lines_outside_server (lines : List (List Char)) (st : parse_state)
    (hs : st.in_server = false)
    (hl : ∀ pre l post, lines = pre ++ l :: post → (run_lines st pre).in_http = true →
      trim (cstr l) ≠ "server \x7b".toList) :
    (run_lines st lines).in_server = false ∧
      (run_lines st lines).config.listen_port = st.config.listen_port ∧
      (run_lines st lines).config.document_root = st.config.document_root := by
  induction lines generalizing st with
  | nil => exact ⟨hs, rfl, rfl⟩
  | cons l ls ih =>
    have h1 := process_line_outside_server st l hs
      (fun h => hl [] l ls rfl h.1 h.2)
    have h2 := ih (process_line st l) h1.1 (fun pre l2 post e hh =>
      hl (l :: pre) l2 post (by rw [e]; rfl) hh)
    rw [run_lines_cons]
    exact ⟨h2.1, h2.2.1.trans h1.2.1, h2.2.2.trans h1.2.2⟩

/-- Lines other than `server {` keep `in_server` clear. -/
theorem run_lines_no_server (lines : List (List Char)) (st : parse_state)
    (hs : st.in_server = false)
    (hl : ∀ l ∈ lines, trim (cstr l) ≠ "server \x7b".toList) :
    (run_lines st lines).in_server = false := by
  apply (run_lines_outside_server lines st hs _).1
  intro pre l post e _
  exact hl l (by rw [e]; simp)

/-- Away from the five directive prefixes and the three block lines the loop
body changes nothing. -/
theorem process_line_unmatched (st : parse_state) (buf : List Char)
    (hn : ∀ n ∈ directive_names, starts_with (trim (cstr buf)) n = false)
    (hb : trim (cstr buf) ∉ block_lines) :
    process_line st buf = st := by
  have h1 := hn "worker_processes".toList (by simp [directive_names])
  have h2 := hn "worker_connections".toList (by simp [directive_names])
  have h3 := hn "listen".toList (by simp [directive_names])
  have h4 := hn "error_log".toList (by simp [directive_names])
  have h5 := hn "root".toList (by simp [directive_names])
  have b1 : trim (cstr buf) ≠ "http \x7b".toList := fun h => hb (by simp [block_lines, h])
  have b2 : trim (cstr buf) ≠ "server \x7b".toList := fun h => hb (by simp [block_lines, h])
  have b3 : trim (cstr buf) ≠ "\x7d".toList := fun h => hb (by simp [block_lines, h])
  unfold process_line
  dsimp only
  rw [h1, h2, h3, h4, h5, if_neg b1, if_neg b3]
  simp only [decide_eq_false b2, Bool.false_and, Bool.false_eq_true, if_false, ite_self]

/-! ## The claims about the parser -/

/-- C2: for every file name that cannot be opened, `proton_config_parse` (with
`calloc` succeeding) returns a configuration, and it is the documented default set:
`worker_processes = 0`, `worker_connections = 1024`, `listen_port = 8080`,
`error_log = "stderr"`, `access_log = "/dev/null"`, `document_root = "."`. -/
theorem missing_file_gives_defaults (fs : file_system) (filename : List Char)
    (h : fs filename = none) :
    proton_config_parse fs true filename =
      some { worker_processes := 0, worker_connections := 1024, listen_port := 8080,
             error_log := "stderr".toList, access_log := "/dev/null".toList,
             document_root := ".".toList } := by
  simp [proton_config_parse, h, default_config]

theorem missing_file_gives_defaults_witness :
    proton_config_parse (fun _ => none) true "proton.conf".toList =
      some { worker_processes := 0, worker_connections := 1024, listen_port := 8080,
             error_log := "stderr".toList, access_log := "/dev/null".toList,
             document_root := ".".toList } :=
  missing_file_gives_defaults (fun _ => none) "proton.conf".toList rfl

/-- C4, as the specification states it, fails: the line `worker_processes_max 8;`
has the directive name `worker_processes_max`, which is none of the five names,
and is no block line, yet it sets `worker_processes` to 8. -/
theorem unrecognized_directive_counterexample :
    directive_name (trim (cstr "worker_processes_max 8;".toList)) ∉ directive_names ∧
    trim (cstr "worker_processes_max 8;".toList) ∉ block_lines ∧
    (process_line initial_state "worker_processes_max 8;".toList).config.worker_processes = 8 ∧
    process_line initial_state "worker_processes_max 8;".toList ≠ initial_state := by
  decide

/-- C4, amended: for every parser state and every line which, once trimmed, does
not begin with one of the five directive names and is not one of the block lines
`http {`, `server {`, `}`, the loop body leaves every configuration field and both
block flags unchanged. -/
theorem unmatched_line_ignored (st : parse_state) (buf : List Char)
    (hn : ∀ n ∈ directive_names, starts_with (trim (cstr buf)) n = false)
    (hb : trim (cstr buf) ∉ block_lines) :
    process_line st buf = st :=
  process_line_unmatched st buf hn hb

theorem unmatched_line_ignored_witness :
    process_line { config := default_config, in_http := true, in_server := true }
        "  location / \x7b\n".toList =
      { config := default_config, in_http := true, in_server := true } :=
  unmatched_line_ignored _ "  location / \x7b\n".toList (by decide) (by decide)

/-! ## The round trip -/

theorem digitChar_spec (k : Nat) (hk : k < 10) :
    isdigit (Nat.digitChar k) = true ∧ (Nat.digitChar k).toNat - 48 = k := by
  interval_cases k <;> decide

theorem toDigitsCore_append (fuel : Nat) : ∀ (n : Nat) (ds : List Char),
    Nat.toDigitsCore 10 fuel n ds = Nat.toDigitsCore 10 fuel n [] ++ ds := by
  induction fuel with
  | zero => intro n ds; rfl
  | succ fuel ih =>
    intro n ds
    unfold Nat.toDigitsCore
    dsimp only
    split_ifs
    · rfl
    · rw [ih (n / 10) (Nat.digitChar (n % 10) :: ds), ih (n / 10) [Nat.digitChar (n % 10)]]
      simp

theorem atoi_digits_append (xs ys : List Char) (hx : ∀ c ∈ xs, isdigit c = true) :
    ∀ acc, atoi_digits (xs ++ ys) acc = atoi_digits ys (atoi_digits xs acc) := by
  induction xs with
  | nil => intro acc; rfl
  | cons x xs ih =>
    intro acc
    have h1 : isdigit x = true := hx x (by simp)
    simp only [List.cons_append, atoi_digits, h1, if_true]
    exact ih (fun c hc => hx c (by simp [hc])) _

theorem toDigitsCore_spec (fuel : Nat) : ∀ n, n < fuel →
    Nat.toDigitsCore 10 fuel n [] ≠ [] ∧
    (∀ c ∈ Nat.toDigitsCore 10 fuel n [], isdigit c = true) ∧
    atoi_digits (Nat.toDigitsCore 10 fuel n []) 0 = n := by
  induction fuel with
  | zero => intro n h; omega
  | succ fuel ih =>
    intro n hn
    have hd := digitChar_spec (n % 10) (Nat.mod_lt _ (by decide))
    unfold Nat.toDigitsCore
    dsimp only
    split_ifs with h0
    · refine ⟨by simp, by simpa using hd.1, ?_⟩
      simp only [atoi_digits, hd.1, if_true, hd.2]
      omega
    · have hlt : n / 10 < fuel := by omega
      obtain ⟨i1, i2, i3⟩ := ih (n / 10) hlt
      rw [toDigitsCore_append]
      refine ⟨by simp, ?_, ?_⟩
      · intro c hc
        rcases List.mem_append.1 hc with h | h
        · exact i2 c h
        · simp only [List.mem_singleton] at h
          rw [h]; exact hd.1
      · rw [atoi_digits_append _ _ i2, i3]
        simp only [atoi_digits, hd.1, if_true, hd.2]
        omega

theorem repr_digits (a : Nat) :
    (Nat.repr a).toList ≠ [] ∧ (∀ c ∈ (Nat.repr a).toList, isdigit c = true) ∧
    atoi_digits (Nat.repr a).toList 0 = a :=
  toDigitsCore_spec (a + 1) a (Nat.lt_succ_self a)

theorem isdigit_facts (c : Char) (h : isdigit c = true) :
    isspace c = false ∧ c ≠ ';' ∧ c ≠ Char.ofNat 0 ∧ c ≠ '\n' ∧ c ≠ '-' ∧ c ≠ '+' ∧ c ≠ 'a' := by
  refine ⟨?_, ?_, ?_, ?_, ?_, ?_, ?_⟩
  · cases hs : isspace c with
    | false => rfl
    | true =>
      simp only [isspace, Bool.or_eq_true, beq_iff_eq] at hs
      rcases hs with ((((hs | hs) | hs) | hs) | hs) | hs <;> (rw [hs] at h; revert h; decide)
  all_goals (intro hc; rw [hc] at h; revert h; decide)

theorem isspace_not_nul (c : Char) (h : isspace c = true) : c ≠ Char.ofNat 0 := by
  intro hc; rw [hc] at h; revert h; decide

theorem cstr_of_no_nul (l : List Char) (h : ∀ c ∈ l, c ≠ Char.ofNat 0) : cstr l = l := by
  unfold cstr
  rw [List.takeWhile_eq_self_iff]
  intro x hx
  simpa using h x hx

theorem dropWhile_all (p : Char → Bool) (xs ys : List Char) (h : ∀ c ∈ xs, p c = true) :
    (xs ++ ys).dropWhile p = ys.dropWhile p := by
  induction xs with
  | nil => rfl
  | cons x xs ih =>
    rw [List.cons_append, List.dropWhile_cons_of_pos (h x (by simp))]
    exact ih (fun c hc => h c (by simp [hc]))

theorem rdropWhile_all (p : Char → Bool) (xs ys : List Char) (h : ∀ c ∈ ys, p c = true) :
    (xs ++ ys).rdropWhile p = xs.rdropWhile p := by
  induction ys using List.reverseRecOn with
  | nil => simp
  | append_singleton ys y ih =>
    rw [← List.append_assoc, List.rdropWhile_concat_pos _ _ _ (h y (by simp))]
    exact ih (fun c hc => h c (by simp [hc]))

/-- A text surrounded by white space is what `trim` leaves. -/
theorem trim_padded (lead text trail : List Char)
    (h0 : text ≠ [])
    (h1 : ∀ c, text.head? = some c → isspace c = false)
    (h2 : ∀ c, text.getLast? = some c → isspace c = false)
    (hl : ∀ c ∈ lead, isspace c = true) (ht : ∀ c ∈ trail, isspace c = true) :
    trim (lead ++ text ++ trail) = text := by
  unfold trim
  rw [List.append_assoc, dropWhile_all _ _ _ hl]
  cases text with
  | nil => exact absurd rfl h0
  | cons c cs =>
    have hc : isspace c = false := h1 c rfl
    rw [List.cons_append, List.dropWhile_cons_of_neg (by simp [hc])]
    dsimp only
    rw [rdropWhile_all _ _ _ ht, List.rdropWhile_eq_self_iff.2]
    intro hne
    have := h2 (cs.getLast hne) (by
      rw [List.getLast?_eq_getLast _ (List.cons_ne_nil _ _), List.getLast_cons hne])
    simp [this]

theorem strchr_skip (name rest : List Char) (c : Char) (h : c ∉ name) :
    strchr (name ++ c :: rest) c = some (c :: rest) := by
  induction name with
  | nil => simp [strchr]
  | cons x xs ih =>
    have hx : x ≠ c := fun e => h (by simp [e])
    rw [List.cons_append, strchr, if_neg hx]
    exact ih (fun hm => h (by simp [hm]))

/-- The value of a directive line `name value;`. -/
theorem directive_value_eq (name v : List Char) (hn : ' ' ∉ name) (h0 : v ≠ [])
    (h1 : ∀ c, v.head? = some c → isspace c = false) (h2 : ';' ∉ v) :
    directive_value (name ++ ' ' :: (v ++ [';'])) = some v := by
  unfold directive_value
  rw [strchr_skip name _ ' ' hn]
  dsimp only [List.tail_cons]
  have ht : trim (v ++ [';']) = v ++ [';'] := by
    have := trim_padded [] (v ++ [';']) [] (by simp)
      (by
        intro c hc
        cases v with
        | nil => exact absurd rfl h0
        | cons x xs => exact h1 c (by simpa using hc))
      (by
        intro c hc
        rw [List.getLast?_concat] at hc
        cases hc
        decide)
      (by simp) (by simp)
    simpa using this
  rw [ht, List.takeWhile_append_of_pos]
  · simp
  · intro a ha
    have : a ≠ ';' := fun e => h2 (e ▸ ha)
    simpa using this

theorem atoi_of_digits (ds : List Char) (a : Nat) (h0 : ds ≠ [])
    (h1 : ∀ c ∈ ds, isdigit c = true) (h2 : atoi_digits ds 0 = a) (ha : a ≤ 2 ^ 31 - 1) :
    atoi ds = (a : Int) := by
  cases ds with
  | nil => exact absurd rfl h0
  | cons d rest =>
    have hd := isdigit_facts d (h1 d (by simp))
    unfold atoi
    rw [List.dropWhile_cons_of_neg (by simp [hd.1])]
    split
    · rename_i heq
      exact absurd (List.cons.inj heq).1 hd.2.2.2.2.1
    · rename_i heq
      exact absurd (List.cons.inj heq).1 hd.2.2.2.2.2.1
    · rw [h2]
      unfold clamp_long to_int
      split_ifs <;> omega

theorem parse_int_of_digits (ds : List Char) (a : Nat) (h0 : ds ≠ [])
    (h1 : ∀ c ∈ ds, isdigit c = true) (h2 : atoi_digits ds 0 = a) (ha : a ≤ 2 ^ 31 - 1) :
    parse_int ds 0 = (a : Int) := by
  unfold parse_int
  rw [if_neg, atoi_of_digits ds a h0 h1 h2 ha]
  intro h
  have := isdigit_facts 'a' (h1 'a' (by rw [h]; simp))
  exact this.2.2.2.2.2.2 rfl

theorem fgets_read_line (l rest : List Char) (hl : '\n' ∉ l) :
    ∀ n, l.length < n → fgets_read n (l ++ '\n' :: rest) = (l ++ ['\n'], rest) := by
  induction l with
  | nil =>
    intro n hn
    cases n with
    | zero => omega
    | succ n => simp [fgets_read]
  | cons x xs ih =>
    intro n hn
    cases n with
    | zero => simp at hn
    | succ n =>
      have hx : x ≠ '\n' := fun e => hl (by simp [e])
      have := ih (fun hm => hl (by simp [hm])) n (by simpa using hn)
      rw [List.cons_append, fgets_read, if_neg hx, this]
      rfl

theorem fgets_read_last (l : List Char) (hl : '\n' ∉ l) :
    ∀ n, l.length ≤ n → fgets_read n l = (l, []) := by
  induction l with
  | nil => intro n _; cases n <;> rfl
  | cons x xs ih =>
    intro n hn
    cases n with
    | zero => simp at hn
    | succ n =>
      have hx : x ≠ '\n' := fun e => hl (by simp [e])
      have := ih (fun hm => hl (by simp [hm])) n (by simpa using hn)
      simp only [fgets_read, if_neg hx, this]

theorem fgets_read_rest (n : Nat) : ∀ s : List Char, (fgets_read n s).2.length ≤ s.length := by
  induction n with
  | zero => intro s; simp [fgets_read]
  | succ n ih =>
    intro s
    cases s with
    | nil => simp [fgets_read]
    | cons c cs =>
      unfold fgets_read
      split_ifs
      · simp
      · have := ih cs
        simp only [List.length_cons]
        omega

/-- Every `fgets` call on a stream that is not at its end consumes a character. -/
theorem fgets_some (fp : List Char) (h : fp ≠ []) :
    ∃ line rest, fgets 1024 fp = some (line, rest) ∧ rest.length < fp.length := by
  cases fp with
  | nil => exact absurd rfl h
  | cons c cs =>
    refine ⟨(fgets_read 1023 (c :: cs)).1, (fgets_read 1023 (c :: cs)).2, by simp [fgets], ?_⟩
    unfold fgets_read
    split_ifs
    · simp
    · have := fgets_read_rest 1022 cs
      simp only [List.length_cons]
      omega

/-- Fuel beyond the length of the stream does not change the lines read. -/
theorem read_lines_fuel (f1 : Nat) : ∀ (f2 : Nat) (fp : List Char),
    fp.length ≤ f1 → fp.length ≤ f2 → read_lines f1 fp = read_lines f2 fp := by
  induction f1 with
  | zero =>
    intro f2 fp h1 _
    have : fp = [] := List.length_eq_zero.1 (by omega)
    subst this
    cases f2 <;> simp [read_lines, fgets]
  | succ f1 ih =>
    intro f2 fp h1 h2
    by_cases hfp : fp = []
    · subst hfp
      cases f2 <;> simp [read_lines, fgets]
    · obtain ⟨line, rest, hg, hlt⟩ := fgets_some fp hfp
      cases f2 with
      | zero =>
        have : fp = [] := List.length_eq_zero.1 (by omega)
        exact absurd this hfp
      | succ f2 =>
        simp only [read_lines, hg]
        rw [ih f2 rest (by omega) (by omega)]

theorem fgets_read_append (n : Nat) : ∀ s : List Char,
    (fgets_read n s).1 ++ (fgets_read n s).2 = s := by
  induction n with
  | zero => intro s; rfl
  | succ n ih =>
    intro s
    cases s with
    | nil => rfl
    | cons c cs =>
      unfold fgets_read
      split_ifs
      · rfl
      · simp only [List.cons_append, ih cs]

theorem read_lines_flatten (fuel : Nat) : ∀ fp : List Char, fp.length ≤ fuel →
    (read_lines fuel fp).flatten = fp := by
  induction fuel with
  | zero =>
    intro fp h
    have : fp = [] := List.length_eq_zero.1 (by omega)
    subst this
    rfl
  | succ fuel ih =>
    intro fp h
    by_cases hfp : fp = []
    · subst hfp
      simp [read_lines, fgets]
    · obtain ⟨line, rest, hg, hlt⟩ := fgets_some fp hfp
      have hg2 := hg
      simp only [fgets, hfp, if_false, Option.some.injEq] at hg2
      simp only [read_lines, hg, List.flatten_cons, ih rest (by omega)]
      have := fgets_read_append (1024 - 1) fp
      rw [hg2] at this
      exact this

/-- The buffers read from a file are the whole file, cut into pieces: the fuel
of `file_lines` never runs out before the end of the stream. -/
theorem file_lines_flatten (fp : List Char) : (file_lines fp).flatten = fp :=
  read_lines_flatten fp.length fp (le_refl _)

theorem file_lines_nil : file_lines [] = [] := rfl

/-- A line of fewer than 1023 characters and its newline are read in one call. -/
theorem file_lines_cons (l rest : List Char) (hl : '\n' ∉ l) (hlen : l.length < 1023) :
    file_lines (l ++ '\n' :: rest) = (l ++ ['\n']) :: file_lines rest := by
  unfold file_lines
  have hlen2 : (l ++ '\n' :: rest).length = (l.length + rest.length) + 1 := by
    simp; omega
  rw [hlen2]
  simp only [read_lines, fgets, List.append_eq_nil, List.cons_ne_nil, and_false, if_false,
    Nat.add_one_sub_one]
  rw [fgets_read_line l rest hl 1023 hlen]
  dsimp only
  rw [read_lines_fuel (l.length + rest.length) rest.length rest (by omega) (le_refl _)]

/-- A last line without newline is read in one call. -/
theorem file_lines_last (l : List Char) (h0 : l ≠ []) (hl : '\n' ∉ l) (hlen : l.length < 1023) :
    file_lines l = [l] := by
  unfold file_lines
  cases hn : l.length with
  | zero => exact absurd (List.length_eq_zero.1 hn) h0
  | succ n =>
    simp only [read_lines, fgets, h0, if_false, Nat.add_one_sub_one]
    rw [fgets_read_last l hl 1023 (by omega)]
    dsimp only
    cases n <;> simp [read_lines, fgets]

theorem process_line_congr (st : parse_state) (buf1 buf2 : List Char)
    (h : trim (cstr buf1) = trim (cstr buf2)) : process_line st buf1 = process_line st buf2 := by
  unfold process_line
  rw [h]

/-- A text without NUL whose first and last characters are not white space is
read back from a line that pads it with white space. -/
theorem process_line_padded (st : parse_state) (lead text trail : List Char)
    (h0 : text ≠ [])
    (h1 : ∀ c, text.head? = some c → isspace c = false)
    (h2 : ∀ c, text.getLast? = some c → isspace c = false)
    (h3 : ∀ c ∈ text, c ≠ Char.ofNat 0)
    (hl : ∀ c ∈ lead, isspace c = true) (ht : ∀ c ∈ trail, isspace c = true) :
    process_line st (lead ++ text ++ trail) = process_line st text := by
  apply process_line_congr
  have hn : ∀ c ∈ lead ++ text ++ trail, c ≠ Char.ofNat 0 := by
    intro c hc
    simp only [List.mem_append] at hc
    rcases hc with (hc | hc) | hc
    · exact isspace_not_nul c (hl c hc)
    · exact h3 c hc
    · exact isspace_not_nul c (ht c hc)
  rw [cstr_of_no_nul _ hn, cstr_of_no_nul _ h3, trim_padded lead text trail h0 h1 h2 hl ht]
  have := trim_padded [] text [] h0 h1 h2 (by simp) (by simp)
  simpa using this.symm

theorem trim_cstr_clean (text : List Char)
    (h0 : text ≠ [])
    (h1 : ∀ c, text.head? = some c → isspace c = false)
    (h2 : ∀ c, text.getLast? = some c → isspace c = false)
    (h3 : ∀ c ∈ text, c ≠ Char.ofNat 0) : trim (cstr text) = text := by
  rw [cstr_of_no_nul _ h3]
  have := trim_padded [] text [] h0 h1 h2 (by simp) (by simp)
  simpa using this


theorem clean_text_iff (t : List Char) :
    clean_text t = true ↔
      t ≠ [] ∧ (∀ c, t.head? = some c → isspace c = false) ∧
      (∀ c, t.getLast? = some c → isspace c = false) ∧
      (∀ c ∈ t, c ≠ Char.ofNat 0) ∧ '\n' ∉ t := by
  unfold clean_text
  cases t with
  | nil => simp
  | cons x xs =>
    simp only [List.isEmpty_cons, Bool.not_false, Bool.true_and, Bool.and_eq_true,
      List.all_eq_true, bne_iff_ne, ne_eq, List.head?_cons, Option.all_some,
      Bool.not_eq_true', not_false_eq_true, Option.some.injEq, forall_eq', true_and,
      List.cons_ne_nil]
    constructor
    · rintro ⟨⟨h1, h2⟩, h3⟩
      refine ⟨h1, ?_, fun c hc => (h3 c hc).1, fun hm => (h3 _ hm).2 rfl⟩
      intro c hc
      rw [hc] at h2
      simpa using h2
    · rintro ⟨h1, h2, h3, h4⟩
      refine ⟨⟨h1, ?_⟩, fun c hc => ⟨h3 c hc, fun e => h4 (e ▸ hc)⟩⟩
      cases hl : (x :: xs).getLast? with
      | none => rfl
      | some c => simpa using h2 c hl

/-- The text `name value;` is clean when `name` starts a clean text and the
value has no NUL and no newline. -/
theorem clean_text_directive (name v : List Char) (hn : clean_text name = true)
    (hv : ∀ c ∈ v, c ≠ Char.ofNat 0 ∧ c ≠ '\n') :
    clean_text (name ++ ' ' :: (v ++ [';'])) = true := by
  obtain ⟨n0, n1, _, n3, n4⟩ := (clean_text_iff name).1 hn
  rw [clean_text_iff]
  refine ⟨by simp, ?_, ?_, ?_, ?_⟩
  · intro c hc
    cases name with
    | nil => exact absurd rfl n0
    | cons x xs => exact n1 c (by simpa using hc)
  · intro c hc
    have e : name ++ ' ' :: (v ++ [';']) = (name ++ ' ' :: v) ++ [';'] := by simp
    rw [e, List.getLast?_concat] at hc
    cases hc
    decide
  · intro c hc
    simp only [List.mem_append, List.mem_cons, List.mem_singleton, List.not_mem_nil,
      or_false] at hc
    rcases hc with hc | hc | hc | hc
    · exact n3 c hc
    · rw [hc]; decide
    · exact (hv c hc).1
    · rw [hc]; decide
  · intro hc
    simp only [List.mem_append, List.mem_cons, List.mem_singleton, List.not_mem_nil,
      or_false] at hc
    rcases hc with hc | hc | hc | hc
    · exact n4 hc
    · exact absurd hc (by decide)
    · exact (hv _ hc).2 rfl
    · exact absurd hc (by decide)

theorem trim_cstr_clean_text (t : List Char) (h : clean_text t = true) : trim (cstr t) = t := by
  obtain ⟨h0, h1, h2, h3, _⟩ := (clean_text_iff t).1 h
  exact trim_cstr_clean t h0 h1 h2 h3

theorem digits_value_ok (ds : List Char) (h1 : ∀ c ∈ ds, isdigit c = true) :
    (∀ c ∈ ds, c ≠ Char.ofNat 0 ∧ c ≠ '\n') ∧
    (∀ c, ds.head? = some c → isspace c = false) ∧ ';' ∉ ds :=
  ⟨fun c hc => ⟨(isdigit_facts c (h1 c hc)).2.2.1, (isdigit_facts c (h1 c hc)).2.2.2.1⟩,
   fun c hc => (isdigit_facts c (h1 c (List.mem_of_mem_head? hc))).1,
   fun hm => (isdigit_facts _ (h1 _ hm)).2.1 rfl⟩

theorem process_worker_processes (st : parse_state) (ds : List Char) (a : Nat) (h0 : ds ≠ [])
    (h1 : ∀ c ∈ ds, isdigit c = true) (h2 : atoi_digits ds 0 = a) (ha : a ≤ 2 ^ 31 - 1) :
    process_line st ("worker_processes".toList ++ ' ' :: (ds ++ [';'])) =
      { st with config := { st.config with worker_processes := a } } := by
  obtain ⟨d1, d2, d3⟩ := digits_value_ok ds h1
  have hc := trim_cstr_clean_text _ (clean_text_directive "worker_processes".toList ds
    (by decide) d1)
  have hv := directive_value_eq "worker_processes".toList ds (by decide) h0 d2 d3
  unfold process_line
  rw [hc]
  dsimp only
  rw [hv]
  simp [starts_with, parse_int_of_digits ds a h0 h1 h2 ha]

theorem process_worker_connections (st : parse_state) (ds : List Char) (a : Nat) (h0 : ds ≠ [])
    (h1 : ∀ c ∈ ds, isdigit c = true) (h2 : atoi_digits ds 0 = a) (ha : a ≤ 2 ^ 31 - 1) :
    process_line st ("worker_connections".toList ++ ' ' :: (ds ++ [';'])) =
      { st with config := { st.config with worker_connections := a } } := by
  obtain ⟨d1, d2, d3⟩ := digits_value_ok ds h1
  have hc := trim_cstr_clean_text _ (clean_text_directive "worker_connections".toList ds
    (by decide) d1)
  have hv := directive_value_eq "worker_connections".toList ds (by decide) h0 d2 d3
  unfold process_line
  rw [hc]
  dsimp only
  rw [hv]
  simp [starts_with, List.isPrefixOf, atoi_of_digits ds a h0 h1 h2 ha]

theorem process_listen (st : parse_state) (ds : List Char) (a : Nat) (hs : st.in_server = true)
    (h0 : ds ≠ []) (h1 : ∀ c ∈ ds, isdigit c = true) (h2 : atoi_digits ds 0 = a)
    (ha : a ≤ 2 ^ 31 - 1) :
    process_line st ("listen".toList ++ ' ' :: (ds ++ [';'])) =
      { st with config := { st.config with listen_port := a } } := by
  obtain ⟨d1, d2, d3⟩ := digits_value_ok ds h1
  have hc := trim_cstr_clean_text _ (clean_text_directive "listen".toList ds (by decide) d1)
  have hv := directive_value_eq "listen".toList ds (by decide) h0 d2 d3
  unfold process_line
  rw [hc]
  dsimp only
  rw [hv]
  simp [starts_with, List.isPrefixOf, hs, atoi_of_digits ds a h0 h1 h2 ha]

theorem process_root (st : parse_state) (r : List Char) (hs : st.in_server = true)
    (h0 : r ≠ []) (h1 : ∀ c, r.head? = some c → isspace c = false) (h2 : ';' ∉ r)
    (h3 : ∀ c ∈ r, c ≠ Char.ofNat 0 ∧ c ≠ '\n') :
    process_line st ("root".toList ++ ' ' :: (r ++ [';'])) =
      { st with config := { st.config with document_root := r } } := by
  have hc := trim_cstr_clean_text _ (clean_text_directive "root".toList r (by decide) h3)
  have hv := directive_value_eq "root".toList r (by decide) h0 h1 h2
  unfold process_line
  rw [hc]
  dsimp only
  rw [hv]
  simp [starts_with, List.isPrefixOf, hs]

theorem process_http (st : parse_state) :
    process_line st "http \x7b".toList = { st with in_http := true } := by
  unfold process_line
  rw [trim_cstr_clean_text _ (by decide)]
  simp [starts_with, List.isPrefixOf]

theorem process_server (st : parse_state) (h : st.in_http = true) :
    process_line st "server \x7b".toList = { st with in_server := true } := by
  unfold process_line
  rw [trim_cstr_clean_text _ (by decide)]
  simp [starts_with, List.isPrefixOf, h]

theorem is_padding_iff (ws : List Char) :
    is_padding ws = true ↔ (∀ c ∈ ws, isspace c = true) ∧ '\n' ∉ ws := by
  unfold is_padding
  simp only [List.all_eq_true, Bool.and_eq_true, bne_iff_ne, ne_eq]
  exact ⟨fun h => ⟨fun c hc => (h c hc).1, fun hm => (h _ hm).2 rfl⟩,
    fun h c hc => ⟨h.1 c hc, fun e => h.2 (e ▸ hc)⟩⟩

/-- Reading one padded line that ends with a newline. -/
theorem run_lines_file_cons (st : parse_state) (lead text trail rest : List Char)
    (ht : clean_text text = true) (hl : is_padding lead = true) (hr : is_padding trail = true)
    (hlen : (lead ++ text ++ trail).length < 1023) :
    run_lines st (file_lines ((lead ++ text ++ trail) ++ '\n' :: rest)) =
      run_lines (process_line st text) (file_lines rest) := by
  obtain ⟨t0, t1, t2, t3, t4⟩ := (clean_text_iff text).1 ht
  obtain ⟨l1, l2⟩ := (is_padding_iff lead).1 hl
  obtain ⟨r1, r2⟩ := (is_padding_iff trail).1 hr
  have hnl : '\n' ∉ lead ++ text ++ trail := by
    simp only [List.mem_append, not_or]
    exact ⟨⟨l2, t4⟩, r2⟩
  rw [file_lines_cons _ _ hnl hlen, run_lines_cons]
  have e : lead ++ text ++ trail ++ ['\n'] = lead ++ text ++ (trail ++ ['\n']) := by simp
  rw [e, process_line_padded st lead text (trail ++ ['\n']) t0 t1 t2 t3 l1]
  intro c hc
  simp only [List.mem_append, List.mem_singleton] at hc
  rcases hc with hc | hc
  · exact r1 c hc
  · rw [hc]; decide

/-- Reading the last padded line, with or without its newline. -/
theorem run_lines_file_last (st : parse_state) (lead text trail : List Char) (nl : Bool)
    (ht : clean_text text = true) (hl : is_padding lead = true) (hr : is_padding trail = true)
    (hlen : (lead ++ text ++ trail).length < 1023) :
    run_lines st (file_lines (if nl = true then (lead ++ text ++ trail) ++ ['\n']
      else lead ++ text ++ trail)) = process_line st text := by
  cases nl with
  | true =>
    rw [if_pos rfl, run_lines_file_cons st lead text trail [] ht hl hr hlen, file_lines_nil,
      run_lines_nil]
  | false =>
    obtain ⟨t0, t1, t2, t3, t4⟩ := (clean_text_iff text).1 ht
    obtain ⟨l1, l2⟩ := (is_padding_iff lead).1 hl
    obtain ⟨r1, r2⟩ := (is_padding_iff trail).1 hr
    have hnl : '\n' ∉ lead ++ text ++ trail := by
      simp only [List.mem_append, not_or]
      exact ⟨⟨l2, t4⟩, r2⟩
    rw [if_neg (by simp), file_lines_last _ (by simp [t0]) hnl hlen, run_lines_cons,
      run_lines_nil, process_line_padded st lead text trail t0 t1 t2 t3 l1 r1]

/-- C1: for all `a`, `b`, `p` between 0 and 2^31 - 1 written in decimal and every
non-empty path `r` without `;`, newline, NUL or leading white space, the file whose
eight lines are `worker_processes a;`, `worker_connections b;`, `http {`, `server {`,
`listen p;`, `root r;`, `}`, `}`, each shorter than 1023 characters and padded
with arbitrary white space on both sides, with or without a newline after the last
line, parses to `worker_processes = a`, `worker_connections = b`, `listen_port = p`,
`document_root = r`, and `error_log`, `access_log` at their defaults. -/
theorem config_round_trip (fs : file_system) (filename : List Char) (a b p : Nat)
    (r : List Char) (lead trail : Nat → List Char) (final_newline : Bool)
    (ha : a ≤ 2 ^ 31 - 1) (hb : b ≤ 2 ^ 31 - 1) (hp : p ≤ 2 ^ 31 - 1)
    (hr0 : r ≠ []) (hr1 : ';' ∉ r) (hr2 : '\n' ∉ r) (hr3 : Char.ofNat 0 ∉ r)
    (hr4 : ∀ c, r.head? = some c → isspace c = false)
    (hpad : ∀ i < 8, is_padding (lead i) = true ∧ is_padding (trail i) = true)
    (hlen : ∀ l ∈ round_trip_lines a b p r lead trail, l.length < 1023)
    (hfs : fs filename =
      some (join_lines (round_trip_lines a b p r lead trail) final_newline)) :
    proton_config_parse fs true filename =
      some { worker_processes := a, worker_connections := b, listen_port := p,
             error_log := "stderr".toList, access_log := "/dev/null".toList,
             document_root := r } := by
  obtain ⟨a0, a1, a2⟩ := repr_digits a
  obtain ⟨b0, b1, b2⟩ := repr_digits b
  obtain ⟨p0, p1, p2⟩ := repr_digits p
  have hr : ∀ c ∈ r, c ≠ Char.ofNat 0 ∧ c ≠ '\n' :=
    fun c hc => ⟨fun e => hr3 (e ▸ hc), fun e => hr2 (e ▸ hc)⟩
  have e0 : "worker_processes ".toList ++ (Nat.repr a).toList ++ ";".toList =
      "worker_processes".toList ++ ' ' :: ((Nat.repr a).toList ++ [';']) := by simp
  have e1 : "worker_connections ".toList ++ (Nat.repr b).toList ++ ";".toList =
      "worker_connections".toList ++ ' ' :: ((Nat.repr b).toList ++ [';']) := by simp
  have e4 : "listen ".toList ++ (Nat.repr p).toList ++ ";".toList =
      "listen".toList ++ ' ' :: ((Nat.repr p).toList ++ [';']) := by simp
  have e5 : "root ".toList ++ r ++ ";".toList = "root".toList ++ ' ' :: (r ++ [';']) := by simp
  have c0 := clean_text_directive "worker_processes".toList _ (by decide) (digits_value_ok _ a1).1
  have c1 := clean_text_directive "worker_connections".toList _ (by decide)
    (digits_value_ok _ b1).1
  have c4 := clean_text_directive "listen".toList _ (by decide) (digits_value_ok _ p1).1
  have c5 := clean_text_directive "root".toList r (by decide) hr
  have hl : ∀ i (t : List Char), i < 8 → padded lead trail i t ∈
      round_trip_lines a b p r lead trail → (lead i ++ t ++ trail i).length < 1023 :=
    fun i t _ hm => hlen _ hm
  unfold proton_config_parse
  rw [hfs]
  simp only [if_true]
  unfold round_trip_lines at hlen
  simp only [List.mem_cons, List.mem_singleton, List.not_mem_nil, or_false, forall_eq_or_imp,
    forall_eq, padded] at hlen
  obtain ⟨n0, n1, n2, n3, n4, n5, n6, n7⟩ := hlen
  rw [e0] at n0
  rw [e1] at n1
  rw [e4] at n4
  rw [e5] at n5
  simp only [round_trip_lines, join_lines, padded]
  rw [e0, e1, e4, e5]
  rw [run_lines_file_cons _ _ _ _ _ c0 (hpad 0 (by decide)).1 (hpad 0 (by decide)).2 n0,
    run_lines_file_cons _ _ _ _ _ c1 (hpad 1 (by decide)).1 (hpad 1 (by decide)).2 n1,
    run_lines_file_cons _ _ _ _ _ (by decide) (hpad 2 (by decide)).1 (hpad 2 (by decide)).2 n2,
    run_lines_file_cons _ _ _ _ _ (by decide) (hpad 3 (by decide)).1 (hpad 3 (by decide)).2 n3,
    run_lines_file_cons _ _ _ _ _ c4 (hpad 4 (by decide)).1 (hpad 4 (by decide)).2 n4,
    run_lines_file_cons _ _ _ _ _ c5 (hpad 5 (by decide)).1 (hpad 5 (by decide)).2 n5,
    run_lines_file_cons _ _ _ _ _ (by decide) (hpad 6 (by decide)).1 (hpad 6 (by decide)).2 n6,
    run_lines_file_last _ _ _ _ _ (by decide) (hpad 7 (by decide)).1 (hpad 7 (by decide)).2 n7]
  rw [process_worker_processes _ _ a a0 a1 a2 ha, process_worker_connections _ _ b b0 b1 b2 hb,
    process_http, process_server _ rfl, process_listen _ _ p rfl p0 p1 p2 hp,
    process_root _ r rfl hr0 hr4 hr1 hr]
  rw [process_line_close _ _ (by decide), process_line_close _ _ (by decide)]
  simp [initial_state, default_config]


theorem config_round_trip_witness :
    proton_config_parse
        (fun _ => some ("worker_processes 4; \nworker_connections 2048;\nhttp \x7b\n" ++
          "  server \x7b\n    listen 9090;\n\troot /srv;\n  \x7d\n\x7d\n").toList)
        true "proton.conf".toList =
      some { worker_processes := 4, worker_connections := 2048, listen_port := 9090,
             error_log := "stderr".toList, access_log := "/dev/null".toList,
             document_root := "/srv".toList } :=
  config_round_trip
    (fun _ => some ("worker_processes 4; \nworker_connections 2048;\nhttp \x7b\n" ++
      "  server \x7b\n    listen 9090;\n\troot /srv;\n  \x7d\n\x7d\n").toList)
    "proton.conf".toList 4 2048 9090 "/srv".toList
    (fun i => if i = 3 ∨ i = 6 then "  ".toList else if i = 4 then "    ".toList
      else if i = 5 then "\t".toList else [])
    (fun i => if i = 0 then " ".toList else [])
    true (by decide) (by decide) (by decide) (by decide) (by decide) (by decide) (by decide)
    (fun c hc => by
      have e : c = '/' := (Option.some.inj hc).symm
      rw [e]; decide)
    (by decide) (by decide) (by decide)

/-! ## Text lines and buffers -/

theorem text_lines_eq_nil (fp : List Char) (h : text_lines fp = []) : fp = [] := by
  cases fp with
  | nil => rfl
  | cons c cs =>
    unfold text_lines at h
    split_ifs at h
    split at h <;> simp at h

/-- A line without newline followed by a newline is the first text line. -/
theorem text_lines_line (a rest : List Char) (ha : '\n' ∉ a) :
    text_lines (a ++ '\n' :: rest) = (a ++ ['\n']) :: text_lines rest := by
  induction a with
  | nil => simp [text_lines]
  | cons x xs ih =>
    have hx : x ≠ '\n' := fun e => ha (by simp [e])
    rw [List.cons_append, text_lines, if_neg hx, ih (fun hm => ha (by simp [hm]))]
    rfl

/-- A non-empty end of file without newline is one text line. -/
theorem text_lines_last (a : List Char) (h0 : a ≠ []) (ha : '\n' ∉ a) : text_lines a = [a] := by
  induction a with
  | nil => exact absurd rfl h0
  | cons x xs ih =>
    have hx : x ≠ '\n' := fun e => ha (by simp [e])
    rw [text_lines, if_neg hx]
    cases xs with
    | nil => rfl
    | cons y ys =>
      rw [ih (by simp) (fun hm => ha (by simp [hm]))]

/-- The first text line of a file and what follows it. -/
theorem text_lines_cons_cases (fp : List Char) : ∀ (l : List Char) (ls : List (List Char)),
    text_lines fp = l :: ls →
    ∃ rest, fp = l ++ rest ∧ text_lines rest = ls ∧
      ((∃ a, l = a ++ ['\n'] ∧ '\n' ∉ a) ∨ ('\n' ∉ l ∧ l ≠ [] ∧ rest = [])) := by
  induction fp with
  | nil => intro l ls h; simp [text_lines] at h
  | cons c cs ih =>
    intro l ls h
    unfold text_lines at h
    by_cases hc : c = '\n'
    · rw [if_pos hc] at h
      obtain ⟨h1, h2⟩ := List.cons.inj h
      refine ⟨cs, by rw [← h1]; rfl, h2, Or.inl ⟨[], by rw [← h1, hc]; rfl, by simp⟩⟩
    · rw [if_neg hc] at h
      cases ht : text_lines cs with
      | nil =>
        rw [ht] at h
        obtain ⟨h1, h2⟩ := List.cons.inj h
        have := text_lines_eq_nil cs ht
        subst this
        refine ⟨[], by rw [← h1]; rfl, by rw [← h2]; rfl, Or.inr ⟨?_, ?_, rfl⟩⟩
        · rw [← h1]; simpa using fun e => hc e.symm
        · rw [← h1]; simp
      | cons l2 ls2 =>
        rw [ht] at h
        obtain ⟨h1, h2⟩ := List.cons.inj h
        obtain ⟨rest, e1, e2, e3⟩ := ih l2 ls2 ht
        refine ⟨rest, by rw [← h1, List.cons_append, ← e1], by rw [e2, h2], ?_⟩
        rcases e3 with ⟨a, ea, hna⟩ | ⟨hn, _, hr⟩
        · refine Or.inl ⟨c :: a, by rw [← h1, ea]; rfl, ?_⟩
          simp only [List.mem_cons, not_or]
          exact ⟨fun e => hc e.symm, hna⟩
        · refine Or.inr ⟨?_, by rw [← h1]; simp, hr⟩
          rw [← h1]
          simp only [List.mem_cons, not_or]
          exact ⟨fun e => hc e.symm, hn⟩

/-- When every line, its newline included, has at most 1023 characters, each
`fgets` call reads exactly one line: the buffers are the text lines. -/
theorem file_lines_eq_text_lines (ls : List (List Char)) : ∀ fp : List Char,
    text_lines fp = ls → (∀ l ∈ ls, l.length ≤ 1023) → file_lines fp = ls := by
  induction ls with
  | nil =>
    intro fp h _
    rw [text_lines_eq_nil fp h]
    rfl
  | cons l ls ih =>
    intro fp h hb
    obtain ⟨rest, e1, e2, e3⟩ := text_lines_cons_cases fp l ls h
    have hl : l.length ≤ 1023 := hb l (by simp)
    have ih2 := ih rest e2 (fun x hx => hb x (by simp [hx]))
    rcases e3 with ⟨a, ea, hna⟩ | ⟨hn, h0, hr⟩
    · have hla : a.length < 1023 := by
        rw [ea] at hl
        simp at hl
        omega
      rw [e1, ea, List.append_assoc, List.singleton_append, file_lines_cons a rest hna hla, ih2]
    · subst hr
      rw [text_lines] at e2
      rw [e1, List.append_nil, ← e2]
      unfold file_lines
      cases hlen : l.length with
      | zero => exact absurd (List.length_eq_zero.1 hlen) h0
      | succ n =>
        simp only [read_lines, fgets, h0, if_false, Nat.add_one_sub_one]
        rw [fgets_read_last l hn 1023 hl]
        dsimp only
        cases n <;> simp [read_lines, fgets]


theorem fgets_read_full (a rest : List Char) (ha : '\n' ∉ a) :
    fgets_read a.length (a ++ rest) = (a, rest) := by
  induction a with
  | nil => rfl
  | cons x xs ih =>
    have hx : x ≠ '\n' := fun e => ha (by simp [e])
    rw [List.length_cons, List.cons_append, fgets_read, if_neg hx,
      ih (fun hm => ha (by simp [hm]))]

/-- A run of 1023 characters without newline fills one buffer, whatever follows. -/
theorem file_lines_full (a rest : List Char) (ha : '\n' ∉ a) (hlen : a.length = 1023) :
    file_lines (a ++ rest) = a :: file_lines rest := by
  have h0 : a ++ rest ≠ [] := by
    cases a with
    | nil => simp at hlen
    | cons x xs => simp
  unfold file_lines
  have hl : (a ++ rest).length = (1022 + rest.length) + 1 := by
    rw [List.length_append, hlen]; omega
  rw [hl]
  simp only [read_lines, fgets, h0, if_false, Nat.add_one_sub_one]
  have := fgets_read_full a rest ha
  rw [hlen] at this
  rw [this]
  dsimp only
  rw [read_lines_fuel (1022 + rest.length) rest.length rest (by omega) (le_refl _)]

/-- A buffer made of the letter `x` only changes nothing. -/
theorem process_line_junk (st : parse_state) (n : Nat) :
    process_line st (List.replicate (n + 1) 'x') = st := by
  have hc : trim (cstr (List.replicate (n + 1) 'x')) = 'x' :: List.replicate n 'x' := by
    rw [List.replicate_succ]
    apply trim_cstr_clean
    · simp
    · intro c hc; simp at hc; rw [← hc]; decide
    · intro c hc
      have : c ∈ 'x' :: List.replicate n 'x' := List.mem_of_mem_getLast? hc
      simp only [List.mem_cons, List.mem_replicate] at this
      have e : c = 'x' := by rcases this with h | h; exact h; exact h.2
      rw [e]; decide
    · intro c hc
      simp only [List.mem_cons, List.mem_replicate] at hc
      have e : c = 'x' := by rcases hc with h | h; exact h; exact h.2
      rw [e]; decide
  apply process_line_unmatched
  · intro m hm
    rw [hc]
    simp only [directive_names, List.mem_cons, List.mem_singleton, List.not_mem_nil,
      or_false] at hm
    rcases hm with rfl | rfl | rfl | rfl | rfl <;> simp [starts_with, List.isPrefixOf]
  · rw [hc]
    simp [block_lines]

/-- What `trim` leaves of a run of `x`, a text and a newline. -/
theorem trim_junk_line (n : Nat) (text : List Char) (h3 : ∀ c ∈ text, c ≠ Char.ofNat 0)
    (h2 : ∀ c, (List.replicate (n + 1) 'x' ++ text).getLast? = some c → isspace c = false) :
    trim (cstr (List.replicate (n + 1) 'x' ++ text ++ ['\n'])) =
      List.replicate (n + 1) 'x' ++ text := by
  have hn : ∀ c ∈ List.replicate (n + 1) 'x' ++ text ++ ['\n'], c ≠ Char.ofNat 0 := by
    intro c hc
    simp only [List.mem_append, List.mem_replicate, List.mem_singleton] at hc
    rcases hc with (hc | hc) | hc
    · rw [hc.2]; decide
    · exact h3 c hc
    · rw [hc]; decide
  rw [cstr_of_no_nul _ hn]
  have := trim_padded [] (List.replicate (n + 1) 'x' ++ text) ['\n']
    (by simp [List.replicate_succ])
    (by
      intro c hc
      rw [List.replicate_succ] at hc
      simp at hc
      rw [← hc]; decide)
    h2 (by simp) (by
      intro c hc
      simp at hc
      rw [hc]; decide)
  simpa using this


/-! ## The claims about lines and blocks -/

theorem proton_config_parse_file (fp filename : List Char) :
    proton_config_parse (fun _ => some fp) true filename =
      some (run_lines initial_state (file_lines fp)).config := rfl

/-- White space after a text does not change what the loop body does with it. -/
theorem process_line_spaces (st : parse_state) (text : List Char) (n : Nat)
    (ht : clean_text text = true) :
    process_line st (text ++ List.replicate n ' ') = process_line st text := by
  obtain ⟨t0, t1, t2, t3, _⟩ := (clean_text_iff text).1 ht
  have := process_line_padded st [] text (List.replicate n ' ') t0 t1 t2 t3 (by simp)
    (by
      intro c hc
      rw [(List.mem_replicate.1 hc).2]
      decide)
  rwa [List.nil_append] at this

theorem long_listen_file_lines :
    text_lines long_listen_file = [long_listen_file] ∧
    file_lines long_listen_file =
      ["listen".toList ++ List.replicate 1017 ' ', "worker_processes 5;\n".toList] ∧
    trim (cstr long_listen_file) =
      "listen".toList ++ List.replicate 1017 ' ' ++ "worker_processes 5;".toList := by
  have e : long_listen_file =
      ("listen".toList ++ List.replicate 1017 ' ' ++ "worker_processes 5;".toList) ++
        '\n' :: [] := by
    unfold long_listen_file
    rw [show "worker_processes 5;\n".toList = "worker_processes 5;".toList ++ ['\n'] from rfl,
      ← List.append_assoc]
  have hb : '\n' ∉ "listen".toList ++ List.replicate 1017 ' ' ++ "worker_processes 5;".toList := by
    simp only [List.mem_append, List.mem_replicate, not_or]
    exact ⟨⟨by decide, fun h => absurd h.2 (by decide)⟩, by decide⟩
  have ha : '\n' ∉ "listen".toList ++ List.replicate 1017 ' ' := by
    simp only [List.mem_append, List.mem_replicate, not_or]
    exact ⟨by decide, fun h => absurd h.2 (by decide)⟩
  have hlen : ("listen".toList ++ List.replicate 1017 ' ').length = 1023 := by
    rw [List.length_append, List.length_replicate]
    rfl
  refine ⟨?_, ?_, ?_⟩
  · conv => rhs; rw [e]
    rw [e, text_lines_line _ [] hb]
    rfl
  · unfold long_listen_file
    rw [file_lines_full _ _ ha hlen]
    rfl
  · rw [e]
    have hn : ∀ c ∈ "listen".toList ++ List.replicate 1017 ' ' ++
        "worker_processes 5;".toList ++ ['\n'], c ≠ Char.ofNat 0 := by
      intro c hc
      simp only [List.mem_append, List.mem_replicate, List.mem_singleton] at hc
      rcases hc with ((hc | hc) | hc) | hc
      · revert c; decide
      · rw [hc.2]; decide
      · revert c; decide
      · rw [hc]; decide
    rw [cstr_of_no_nul _ hn]
    have := trim_padded []
      ("listen".toList ++ List.replicate 1017 ' ' ++ "worker_processes 5;".toList) ['\n']
      (fun h => absurd (List.append_eq_nil.1 h).2 (by decide))
      (by
        intro c hc
        rw [List.append_assoc] at hc
        have : c = 'l' := (Option.some.inj hc).symm
        rw [this]; decide)
      (by
        intro c hc
        rw [List.getLast?_append_of_ne_nil _ (by simp)] at hc
        have : c = ';' := (Option.some.inj hc).symm
        rw [this]; decide)
      (by simp) (by simp [isspace])
    rwa [List.nil_append] at this

theorem long_junk_file_lines :
    text_lines long_junk_file =
      ["http \x7b\n".toList, List.replicate 1023 'x' ++ "server \x7b".toList ++ ['\n'],
        "listen 81;\n".toList, "root /x;\n".toList] ∧
    file_lines long_junk_file =
      ["http \x7b\n".toList, List.replicate 1023 'x', "server \x7b\n".toList,
        "listen 81;\n".toList, "root /x;\n".toList] := by
  have hx : '\n' ∉ List.replicate 1023 'x' := by
    simp only [List.mem_replicate, not_and]
    intro _ h
    exact absurd h (by decide)
  have hxs : '\n' ∉ List.replicate 1023 'x' ++ "server \x7b".toList := by
    simp only [List.mem_append, not_or]
    exact ⟨hx, by decide⟩
  constructor
  · have e : long_junk_file = "http \x7b".toList ++ '\n' ::
        ((List.replicate 1023 'x' ++ "server \x7b".toList) ++ '\n' ::
          "listen 81;\nroot /x;\n".toList) := by
      unfold long_junk_file
      rw [List.append_assoc]
      rfl
    rw [e, text_lines_line _ _ (by decide), text_lines_line _ _ hxs]
    rfl
  · have e : long_junk_file = "http \x7b".toList ++ '\n' ::
        (List.replicate 1023 'x' ++ "server \x7b\nlisten 81;\nroot /x;\n".toList) := rfl
    rw [e, file_lines_cons _ _ (by decide) (by decide),
      file_lines_full _ _ hx (List.length_replicate _ _)]
    rfl

/-- C3, as stated, fails on lines longer than the 1024-byte buffer.  The only line
of `long_listen_file` begins with `listen` and is read outside a server block, yet
after it `worker_processes` is 5: the second buffer of the line is taken as a
directive.  No line of `long_junk_file` is `server {`, yet the file parses to
`listen_port = 81` and `document_root = "/x"`: the second buffer of its second
line is `server {`. -/
theorem long_line_counterexample :
    text_lines long_listen_file = [long_listen_file] ∧
    starts_with (trim (cstr long_listen_file)) "listen".toList = true ∧
    initial_state.in_server = false ∧
    (proton_config_parse (fun _ => some long_listen_file) true "proton.conf".toList).map
      proton_config_t.worker_processes = some 5 ∧
    "server \x7b".toList ∉ (text_lines long_junk_file).map (fun l => trim (cstr l)) ∧
    (proton_config_parse (fun _ => some long_junk_file) true "proton.conf".toList).map
      (fun c => (c.listen_port, c.document_root)) = some (81, "/x".toList) := by
  refine ⟨long_listen_file_lines.1, ?_, rfl, ?_, ?_, ?_⟩
  · rw [long_listen_file_lines.2.2, starts_with_iff]
    exact ⟨_, List.append_assoc _ _ _⟩
  · rw [proton_config_parse_file, long_listen_file_lines.2.1, run_lines_cons,
      process_line_spaces _ _ _ (by decide)]
    decide
  · rw [long_junk_file_lines.1]
    simp only [List.map_cons, List.map_nil, List.mem_cons, List.mem_singleton,
      List.not_mem_nil, or_false, not_or]
    refine ⟨by decide, ?_, by decide, by decide⟩
    rw [trim_junk_line 1022 _ (by decide) (by
      intro c hc
      rw [List.getLast?_append_of_ne_nil _ (by simp)] at hc
      have : c = Char.ofNat 123 := (Option.some.inj hc).symm
      rw [this]; decide)]
    intro h
    have := congrArg List.length h
    rw [List.length_append, List.length_replicate] at this
    exact absurd this (by decide)
  · rw [proton_config_parse_file, long_junk_file_lines.2, run_lines_cons, run_lines_cons,
      process_line_junk _ 1022]
    decide

/-- C3, amended: in every file whose lines have at most 1023 characters, newline
included (every line shorter than 1023 characters), each `fgets` call reads one
line; a line that begins, after trimming, with `listen` or `root` (the line being
read as the C string the parser sees, `trim (cstr l)`) and is read
while `in_server = 0` leaves the whole parser state unchanged (every field of the
configuration and both block flags); and when no `server {` line is read while
the http block is open (`in_http = 1`), the file parses to `listen_port = 8080`
and `document_root = "."`. -/
theorem listen_root_only_in_server (fs : file_system) (filename fp : List Char)
    (hfp : fs filename = some fp) (hlen : ∀ l ∈ text_lines fp, l.length ≤ 1023) :
    file_lines fp = text_lines fp ∧
    (∀ pre l post, text_lines fp = pre ++ l :: post →
      (run_lines initial_state pre).in_server = false →
      (starts_with (trim (cstr l)) "listen".toList = true ∨
        starts_with (trim (cstr l)) "root".toList = true) →
      process_line (run_lines initial_state pre) l = run_lines initial_state pre) ∧
    ((∀ pre l post, text_lines fp = pre ++ l :: post →
        (run_lines initial_state pre).in_http = true →
        trim (cstr l) ≠ "server \x7b".toList) →
      ∃ cfg, proton_config_parse fs true filename = some cfg ∧
        cfg.listen_port = 8080 ∧ cfg.document_root = ".".toList) := by
  have hb := file_lines_eq_text_lines (text_lines fp) fp rfl hlen
  refine ⟨hb, ?_, ?_⟩
  · intro pre l post _ hs hl
    exact process_line_listen_root _ l hs hl
  · intro hl
    have h := run_lines_outside_server (text_lines fp) initial_state rfl hl
    refine ⟨(run_lines initial_state (text_lines fp)).config, ?_, h.2.1, h.2.2⟩
    simp [proton_config_parse, hfp, hb]

theorem listen_root_only_in_server_witness :
    file_lines "server \x7b\nlisten 9090;\nroot /srv;\n\x7d\n".toList =
      text_lines "server \x7b\nlisten 9090;\nroot /srv;\n\x7d\n".toList ∧
    process_line (run_lines initial_state ["server \x7b\n".toList]) "listen 9090;\n".toList =
      run_lines initial_state ["server \x7b\n".toList] ∧
    ∃ cfg, proton_config_parse
        (fun _ => some "server \x7b\nlisten 9090;\nroot /srv;\n\x7d\n".toList)
        true "proton.conf".toList = some cfg ∧
      cfg.listen_port = 8080 ∧ cfg.document_root = ".".toList := by
  have h := listen_root_only_in_server
    (fun _ => some "server \x7b\nlisten 9090;\nroot /srv;\n\x7d\n".toList)
    "proton.conf".toList "server \x7b\nlisten 9090;\nroot /srv;\n\x7d\n".toList rfl (by decide)
  refine ⟨h.1, h.2.1 ["server \x7b\n".toList] "listen 9090;\n".toList
    ["root /srv;\n".toList, "\x7d\n".toList] (by decide) (by decide) (Or.inl (by decide)),
    h.2.2 ?_⟩
  intro pre l post e hh
  have e2 : text_lines "server \x7b\nlisten 9090;\nroot /srv;\n\x7d\n".toList =
      ["server \x7b\n".toList, "listen 9090;\n".toList, "root /srv;\n".toList,
        "\x7d\n".toList] := by
    decide
  rw [e2] at e
  rcases pre with _ | ⟨p, pre⟩
  · exact absurd hh (by decide)
  · have hm : l ∈ ["listen 9090;\n".toList, "root /srv;\n".toList, "\x7d\n".toList] := by
      have e3 := (List.cons.inj e).2
      rw [e3]; simp
    simp only [List.mem_cons, List.mem_singleton, List.not_mem_nil, or_false] at hm
    rcases hm with rfl | rfl | rfl <;> decide

theorem nested_long_file_lines :
    text_lines nested_long_file =
      ["http \x7b\n".toList, "server \x7b\n".toList, "location / \x7b\n".toList,
        "\x7d\n".toList] ++
      [List.replicate 1023 'x' ++ "server \x7b".toList ++ ['\n'], "listen 81;\n".toList,
        "\x7d\n".toList, "\x7d\n".toList] ∧
    file_lines nested_long_file =
      ["http \x7b\n".toList, "server \x7b\n".toList, "location / \x7b\n".toList,
        "\x7d\n".toList, List.replicate 1023 'x', "server \x7b\n".toList,
        "listen 81;\n".toList, "\x7d\n".toList, "\x7d\n".toList] := by
  have hx : '\n' ∉ List.replicate 1023 'x' := by
    simp only [List.mem_replicate, not_and]
    intro _ h
    exact absurd h (by decide)
  have hxs : '\n' ∉ List.replicate 1023 'x' ++ "server \x7b".toList := by
    simp only [List.mem_append, not_or]
    exact ⟨hx, by decide⟩
  constructor
  · have e : nested_long_file = "http \x7b".toList ++ '\n' :: ("server \x7b".toList ++ '\n' ::
        ("location / \x7b".toList ++ '\n' :: ("\x7d".toList ++ '\n' ::
          ((List.replicate 1023 'x' ++ "server \x7b".toList) ++ '\n' ::
            "listen 81;\n\x7d\n\x7d\n".toList)))) := by
      unfold nested_long_file
      rw [List.append_assoc (List.replicate 1023 'x')]
      rfl
    rw [e, text_lines_line _ _ (by decide), text_lines_line _ _ (by decide),
      text_lines_line _ _ (by decide), text_lines_line _ _ (by decide),
      text_lines_line _ _ hxs]
    rfl
  · have e : nested_long_file = "http \x7b".toList ++ '\n' :: ("server \x7b".toList ++ '\n' ::
        ("location / \x7b".toList ++ '\n' :: ("\x7d".toList ++ '\n' ::
          (List.replicate 1023 'x' ++ "server \x7b\nlisten 81;\n\x7d\n\x7d\n".toList)))) := rfl
    rw [e, file_lines_cons _ _ (by decide) (by decide),
      file_lines_cons _ _ (by decide) (by decide), file_lines_cons _ _ (by decide) (by decide),
      file_lines_cons _ _ (by decide) (by decide),
      file_lines_full _ _ hx (List.length_replicate _ _)]
    rfl

/-- C10, as stated, fails.  In the file `http {`, `server {`, `location / {`, `}`,
`server {`, `listen 81;`, `}`, `}`, `}` the directive `listen 81;` follows the closing
brace of the nested block and precedes the closing brace of the outer server block,
yet it changes `listen_port` from 8080 to 81 and the file parses to port 81: the
second `server {` line sets `in_server` again, `in_http` being still set.  And in
`nested_long_file` no line after the closing brace of the nested block is
`server {`, yet the file parses to port 81: the line of 1023 times `x` followed by
`server {` is longer than the buffer and its second part is read as `server {`. -/
theorem nested_block_counterexample :
    (run_lines initial_state ["http \x7b\n".toList, "server \x7b\n".toList,
      "location / \x7b\n".toList, "\x7d\n".toList, "server \x7b\n".toList]).config.listen_port
        = 8080 ∧
    (process_line (run_lines initial_state ["http \x7b\n".toList, "server \x7b\n".toList,
      "location / \x7b\n".toList, "\x7d\n".toList, "server \x7b\n".toList])
      "listen 81;\n".toList).config.listen_port = 81 ∧
    (proton_config_parse
      (fun _ => some ("http \x7b\nserver \x7b\nlocation / \x7b\n\x7d\nserver \x7b\n" ++
        "listen 81;\n\x7d\n\x7d\n\x7d\n").toList)
      true "proton.conf".toList).map proton_config_t.listen_port = some 81 ∧
    text_lines nested_long_file =
      ["http \x7b\n".toList, "server \x7b\n".toList, "location / \x7b\n".toList,
        "\x7d\n".toList] ++
      [List.replicate 1023 'x' ++ "server \x7b".toList ++ ['\n'], "listen 81;\n".toList,
        "\x7d\n".toList, "\x7d\n".toList] ∧
    "server \x7b".toList ∉
      [List.replicate 1023 'x' ++ "server \x7b".toList ++ ['\n'], "listen 81;\n".toList,
        "\x7d\n".toList, "\x7d\n".toList].map (fun l => trim (cstr l)) ∧
    (proton_config_parse (fun _ => some nested_long_file) true "proton.conf".toList).map
      proton_config_t.listen_port = some 81 := by
  refine ⟨by decide, by decide, by decide, nested_long_file_lines.1, ?_, ?_⟩
  · simp only [List.map_cons, List.map_nil, List.mem_cons, List.mem_singleton,
      List.not_mem_nil, or_false, not_or]
    refine ⟨?_, by decide, by decide, by decide⟩
    rw [trim_junk_line 1022 _ (by decide) (by
      intro c hc
      rw [List.getLast?_append_of_ne_nil _ (by simp)] at hc
      have : c = Char.ofNat 123 := (Option.some.inj hc).symm
      rw [this]; decide)]
    intro h
    have := congrArg List.length h
    rw [List.length_append, List.length_replicate] at this
    exact absurd this (by decide)
  · rw [proton_config_parse_file, nested_long_file_lines.2, run_lines_cons, run_lines_cons,
      run_lines_cons, run_lines_cons, run_lines_cons, process_line_junk _ 1022]
    decide

/-- C10, amended: a `}` line clears `in_server` whenever it is set and otherwise
clears `in_http`; `in_server = 1` implies `in_http = 1` after every line of every
file; and in every file whose lines have at most 1023 characters, newline included
(every line shorter than 1023 characters), each `fgets` call reads one line, and a
line beginning with `listen` or `root` that follows a `}` line (such as the one
closing a block nested in a server block) leaves the whole state, so `listen_port`
and `document_root`, unchanged, provided that no `server {` line between that `}`
line and the directive is read while `in_http = 1`. -/
theorem block_flags_without_depth :
    (∀ (st : parse_state) (buf : List Char), trim (cstr buf) = "\x7d".toList →
      process_line st buf =
        if st.in_server = true then { st with in_server := false }
        else { st with in_http := false }) ∧
    (∀ lines : List (List Char), (run_lines initial_state lines).in_server = true →
      (run_lines initial_state lines).in_http = true) ∧
    (∀ fp : List Char, (∀ l ∈ text_lines fp, l.length ≤ 1023) →
      file_lines fp = text_lines fp ∧
      ∀ (before : List (List Char)) (cls : List Char) (mid : List (List Char))
        (d : List Char) (post : List (List Char)),
        text_lines fp = before ++ cls :: (mid ++ d :: post) →
        trim (cstr cls) = "\x7d".toList →
        (∀ m1 s m2, mid = m1 ++ s :: m2 →
          (run_lines initial_state (before ++ cls :: m1)).in_http = true →
          trim (cstr s) ≠ "server \x7b".toList) →
        (starts_with (trim (cstr d)) "listen".toList = true ∨
          starts_with (trim (cstr d)) "root".toList = true) →
        process_line (run_lines initial_state (before ++ cls :: mid)) d =
          run_lines initial_state (before ++ cls :: mid)) := by
  refine ⟨process_line_close, fun lines => run_lines_flags lines initial_state (by decide), ?_⟩
  intro fp hlen
  refine ⟨file_lines_eq_text_lines (text_lines fp) fp rfl hlen, ?_⟩
  intro before cls mid d post _ hc hm hd
  apply process_line_listen_root _ _ _ hd
  have e : before ++ cls :: mid = (before ++ [cls]) ++ mid := by simp
  rw [e, run_lines_append]
  refine (run_lines_outside_server mid _ ?_ ?_).1
  · rw [run_lines_append, run_lines_cons, run_lines_nil, process_line_close _ _ hc]
    split
    · rfl
    · simpa using ‹¬(run_lines initial_state before).in_server = true›
  · intro m1 s m2 hs hh
    refine hm m1 s m2 hs ?_
    have e2 : before ++ cls :: m1 = (before ++ [cls]) ++ m1 := by simp
    rw [e2, run_lines_append]
    exact hh

theorem block_flags_without_depth_witness :
    process_line { config := default_config, in_http := true, in_server := true }
        "\x7d\n".toList =
      { config := default_config, in_http := true, in_server := false } ∧
    file_lines ("http \x7b\nserver \x7b\nlocation / \x7b\n\x7d\nserver \x7b\n\x7d\n" ++
        "index x;\nlisten 81;\n\x7d\n").toList =
      text_lines ("http \x7b\nserver \x7b\nlocation / \x7b\n\x7d\nserver \x7b\n\x7d\n" ++
        "index x;\nlisten 81;\n\x7d\n").toList ∧
    process_line (run_lines initial_state (["http \x7b\n".toList, "server \x7b\n".toList,
        "location / \x7b\n".toList, "\x7d\n".toList, "server \x7b\n".toList] ++
        "\x7d\n".toList :: ["index x;\n".toList])) "listen 81;\n".toList =
      run_lines initial_state (["http \x7b\n".toList, "server \x7b\n".toList,
        "location / \x7b\n".toList, "\x7d\n".toList, "server \x7b\n".toList] ++
        "\x7d\n".toList :: ["index x;\n".toList]) := by
  have h := block_flags_without_depth.2.2
    ("http \x7b\nserver \x7b\nlocation / \x7b\n\x7d\nserver \x7b\n\x7d\n" ++
      "index x;\nlisten 81;\n\x7d\n").toList (by decide)
  refine ⟨block_flags_without_depth.1 _ "\x7d\n".toList (by decide), h.1,
    h.2 ["http \x7b\n".toList, "server \x7b\n".toList, "location / \x7b\n".toList,
        "\x7d\n".toList, "server \x7b\n".toList]
      "\x7d\n".toList ["index x;\n".toList] "listen 81;\n".toList ["\x7d\n".toList]
      (by decide) (by decide) ?_ (Or.inl (by decide))⟩
  intro m1 s m2 hs _
  have hm : s ∈ ["index x;\n".toList] := by rw [hs]; simp
  rw [List.mem_singleton] at hm
  rw [hm]
  decide


/-! ## The claim about the signal handler -/

/-- C9: on `SIGINT` or `SIGTERM` the handler sets `proton_quit` to 1 and leaves
`proton_reload` unchanged; on `SIGHUP` it sets `proton_reload` to 1 and leaves
`proton_quit` unchanged; on `SIGCHLD` and on every other signal number it leaves both
flags unchanged.  Hence it never clears a flag that is set, and delivering a
signal twice has the effect of delivering it once. -/
theorem signal_handler_effect (signo : Int) (f : signal_flags) :
    ((signo = SIGINT ∨ signo = SIGTERM) →
      signal_handler signo f = { proton_quit := 1, proton_reload := f.proton_reload }) ∧
    (signo = SIGHUP →
      signal_handler signo f = { proton_quit := f.proton_quit, proton_reload := 1 }) ∧
    (signo = SIGCHLD → signal_handler signo f = f) ∧
    (signo ≠ SIGINT → signo ≠ SIGTERM → signo ≠ SIGHUP → signal_handler signo f = f) ∧
    (f.proton_quit ≠ 0 → (signal_handler signo f).proton_quit ≠ 0) ∧
    (f.proton_reload ≠ 0 → (signal_handler signo f).proton_reload ≠ 0) ∧
    signal_handler signo (signal_handler signo f) = signal_handler signo f := by
  unfold signal_handler
  refine ⟨?_, ?_, ?_, ?_, ?_, ?_, ?_⟩
  · intro h; simp [h]
  · intro h; subst h; simp [SIGHUP, SIGINT, SIGTERM]
  · intro h; subst h; simp [SIGCHLD, SIGHUP, SIGINT, SIGTERM]
  · intro h1 h2 h3; simp [h1, h2, h3]
  · intro h; split_ifs <;> simp [h]
  · intro h; split_ifs <;> simp [h]
  · split_ifs <;> simp_all

theorem signal_handler_effect_witness :
    signal_handler 15 { proton_quit := 0, proton_reload := 1 } =
        { proton_quit := 1, proton_reload := 1 } ∧
    signal_handler 1 { proton_quit := 0, proton_reload := 0 } =
        { proton_quit := 0, proton_reload := 1 } ∧
    signal_handler 17 { proton_quit := 0, proton_reload := 0 } =
        { proton_quit := 0, proton_reload := 0 } ∧
    signal_handler 10 { proton_quit := 1, proton_reload := 0 } =
        { proton_quit := 1, proton_reload := 0 } ∧
    (signal_handler 1 { proton_quit := 1, proton_reload := 0 }).proton_quit ≠ 0 ∧
    (signal_handler 2 { proton_quit := 0, proton_reload := 1 }).proton_reload ≠ 0 :=
  ⟨(signal_handler_effect 15 _).1 (Or.inr rfl),
   (signal_handler_effect 1 _).2.1 rfl,
   (signal_handler_effect 17 _).2.2.1 rfl,
   (signal_handler_effect 10 _).2.2.2.1 (by decide) (by decide) (by decide),
   (signal_handler_effect 1 _).2.2.2.2.1 (by decide),
   (signal_handler_effect 2 _).2.2.2.2.2.1 (by decide)⟩

/-! ## Properties of the accept handler -/

/-- The calls that follow the failing `accept`. -/
theorem accept_handler_fail (listen_fd : Int) (t : accept_turn) (rest : List accept_turn)
    (hf : t.client_fd < 0) :
    accept_handler listen_fd (t :: rest) =
      some (PROTON_OK, action.accept listen_fd ::
        (if t.errno = EAGAIN ∨ t.errno = EWOULDBLOCK then [] else [action.log_error]), rest) := by
  unfold accept_handler
  rw [if_pos hf]
  split_ifs <;> rfl

/-- One successful `accept` adds its segment and the loop goes on. -/
theorem accept_handler_ok (listen_fd : Int) (t : accept_turn) (rest : List accept_turn)
    (hs : 0 ≤ t.client_fd) :
    accept_handler listen_fd (t :: rest) =
      (accept_handler listen_fd rest).map fun r =>
        (r.1, accepted_segment listen_fd t ++ r.2.1, r.2.2) := by
  rw [accept_handler, if_neg (not_lt.2 hs)]
  cases hc : t.conn_created <;> simp [accepted_segment, hc]

/-- The whole run of the handler on `k` successful accepts followed by a failing one. -/
theorem accept_handler_drain (listen_fd : Int) (succ : List accept_turn) (fail : accept_turn)
    (rest : List accept_turn) (hs : ∀ t ∈ succ, 0 ≤ t.client_fd) (hf : fail.client_fd < 0) :
    accept_handler listen_fd (succ ++ fail :: rest) =
      some (PROTON_OK, succ.flatMap (accepted_segment listen_fd) ++
        (action.accept listen_fd ::
          (if fail.errno = EAGAIN ∨ fail.errno = EWOULDBLOCK then [] else [action.log_error])),
        rest) := by
  induction succ with
  | nil => simpa using accept_handler_fail listen_fd fail rest hf
  | cons t ts ih =>
    have ht : 0 ≤ t.client_fd := hs t (by simp)
    have ih2 := ih (fun u hu => hs u (by simp [hu]))
    rw [List.cons_append, accept_handler_ok listen_fd t _ ht, ih2]
    simp

/-- While every `accept` succeeds the handler does not return. -/
theorem accept_handler_running (listen_fd : Int) (succ : List accept_turn)
    (hs : ∀ t ∈ succ, 0 ≤ t.client_fd) : accept_handler listen_fd succ = none := by
  induction succ with
  | nil => rfl
  | cons t ts ih =>
    rw [accept_handler_ok listen_fd t _ (hs t (by simp)), ih (fun u hu => hs u (by simp [hu]))]
    rfl

theorem accept_calls_append (a b : List action) :
    accept_calls (a ++ b) = accept_calls a + accept_calls b := by
  simp [accept_calls]

theorem accept_calls_segments (listen_fd : Int) (succ : List accept_turn) :
    accept_calls (succ.flatMap (accepted_segment listen_fd)) = succ.length := by
  induction succ with
  | nil => rfl
  | cons t ts ih =>
    rw [List.flatMap_cons, accept_calls_append, ih]
    cases hc : t.conn_created <;> simp [accepted_segment, accept_calls, hc] <;> omega

theorem accept_calls_tail (listen_fd : Int) (c : Prop) [Decidable c] :
    accept_calls (action.accept listen_fd :: (if c then [] else [action.log_error])) = 1 := by
  split_ifs <;> rfl

theorem nonblocking_fds_segments (listen_fd : Int) (succ : List accept_turn) :
    nonblocking_fds (succ.flatMap (accepted_segment listen_fd)) =
      succ.map accept_turn.client_fd := by
  induction succ with
  | nil => rfl
  | cons t ts ih =>
    unfold nonblocking_fds at ih ⊢
    rw [List.flatMap_cons, List.filterMap_append, ih]
    cases hc : t.conn_created <;> simp [accepted_segment, hc]

theorem created_fds_segments (listen_fd : Int) (succ : List accept_turn) :
    created_fds (succ.flatMap (accepted_segment listen_fd)) =
      succ.map accept_turn.client_fd := by
  induction succ with
  | nil => rfl
  | cons t ts ih =>
    unfold created_fds at ih ⊢
    rw [List.flatMap_cons, List.filterMap_append, ih]
    cases hc : t.conn_created <;> simp [accepted_segment, hc]

theorem registered_fds_segments (listen_fd : Int) (succ : List accept_turn) :
    registered_fds (succ.flatMap (accepted_segment listen_fd)) =
      (succ.filter fun t => t.conn_created).map accept_turn.client_fd := by
  induction succ with
  | nil => rfl
  | cons t ts ih =>
    unfold registered_fds at ih ⊢
    rw [List.flatMap_cons, List.filterMap_append, ih]
    cases hc : t.conn_created <;> simp [accepted_segment, hc]

theorem closed_fds_segments (listen_fd : Int) (succ : List accept_turn) :
    closed_fds (succ.flatMap (accepted_segment listen_fd)) =
      (succ.filter fun t => !t.conn_created).map accept_turn.client_fd := by
  induction succ with
  | nil => rfl
  | cons t ts ih =>
    unfold closed_fds at ih ⊢
    rw [List.flatMap_cons, List.filterMap_append, ih]
    cases hc : t.conn_created <;> simp [accepted_segment, hc]

theorem fds_tail (listen_fd : Int) (c : Prop) [Decidable c] :
    nonblocking_fds (action.accept listen_fd :: (if c then [] else [action.log_error])) = [] ∧
    created_fds (action.accept listen_fd :: (if c then [] else [action.log_error])) = [] ∧
    registered_fds (action.accept listen_fd :: (if c then [] else [action.log_error])) = [] ∧
    closed_fds (action.accept listen_fd :: (if c then [] else [action.log_error])) = [] := by
  split_ifs <;> exact ⟨rfl, rfl, rfl, rfl⟩

/-- C5: when the first `k` accept calls succeed and call `k + 1` fails, with
would-block or with any other error, the handler returns `PROTON_OK` after exactly
`k + 1` accept calls (the script is consumed up to and including the failing call).
Every accepted descriptor is processed in full, whatever connection creation
answers: it is switched to non-blocking mode and handed to connection creation,
then either its event is registered or the failure is logged and the descriptor
closed, and the next call is the next `accept`; after the failing `accept` nothing
follows but the log of a hard error.  As long as accepts succeed the handler does
not return. -/
theorem accept_drains_until_failure (listen_fd : Int) (succ : List accept_turn)
    (fail : accept_turn) (rest : List accept_turn)
    (hs : ∀ t ∈ succ, 0 ≤ t.client_fd) (hf : fail.client_fd < 0) :
    (∃ tr, accept_handler listen_fd (succ ++ fail :: rest) = some (PROTON_OK, tr, rest) ∧
      tr = succ.flatMap (fun t =>
          [action.accept listen_fd, action.set_nonblocking t.client_fd,
            action.connection_create t.client_fd] ++
          (if t.conn_created = true then [action.event_add t.client_fd]
           else [action.log_error, action.close t.client_fd])) ++
        (action.accept listen_fd ::
          (if fail.errno = EAGAIN ∨ fail.errno = EWOULDBLOCK then [] else [action.log_error])) ∧
      accept_calls tr = succ.length + 1 ∧
      nonblocking_fds tr = succ.map accept_turn.client_fd ∧
      created_fds tr = succ.map accept_turn.client_fd) ∧
    accept_handler listen_fd succ = none := by
  refine ⟨⟨_, accept_handler_drain listen_fd succ fail rest hs hf, rfl, ?_, ?_, ?_⟩,
    accept_handler_running listen_fd succ hs⟩
  · rw [accept_calls_append, accept_calls_segments, accept_calls_tail]
  · unfold nonblocking_fds
    rw [List.filterMap_append]
    have h1 := nonblocking_fds_segments listen_fd succ
    have h2 := (fds_tail listen_fd (fail.errno = EAGAIN ∨ fail.errno = EWOULDBLOCK)).1
    unfold nonblocking_fds at h1 h2
    rw [h1, h2, List.append_nil]
  · unfold created_fds
    rw [List.filterMap_append]
    have h1 := created_fds_segments listen_fd succ
    have h2 := (fds_tail listen_fd (fail.errno = EAGAIN ∨ fail.errno = EWOULDBLOCK)).2.1
    unfold created_fds at h1 h2
    rw [h1, h2, List.append_nil]

theorem accept_drains_until_failure_witness :
    (∃ tr, accept_handler 3
        ([{ client_fd := 5, errno := 0, conn_created := true },
          { client_fd := 6, errno := 0, conn_created := false }] ++
          { client_fd := -1, errno := 11, conn_created := false } :: []) =
        some (PROTON_OK, tr, []) ∧
      tr = [action.accept 3, action.set_nonblocking 5, action.connection_create 5,
            action.event_add 5,
            action.accept 3, action.set_nonblocking 6, action.connection_create 6,
            action.log_error, action.close 6,
            action.accept 3] ∧
      accept_calls tr = 2 + 1 ∧ nonblocking_fds tr = [5, 6] ∧ created_fds tr = [5, 6]) ∧
    accept_handler 3 [{ client_fd := 5, errno := 0, conn_created := true },
      { client_fd := 6, errno := 0, conn_created := false }] = none :=
  accept_drains_until_failure 3
    [{ client_fd := 5, errno := 0, conn_created := true },
      { client_fd := 6, errno := 0, conn_created := false }]
    { client_fd := -1, errno := 11, conn_created := false } [] (by decide) (by decide)

/-- C6: in a run of the handler, every accepted descriptor is switched to
non-blocking mode and handed to connection creation, and then exactly one of two
things follows: when creation succeeds, one `proton_event_add` for it and no
`close`; when creation fails, a log and one `close` and no registration; in both
cases the next call is the next `accept`.  So the registered descriptors are
exactly those accepted with a connection created, as many as there are, and the
closed ones exactly those whose creation failed. -/
theorem accept_registers_or_closes (listen_fd : Int) (succ : List accept_turn)
    (fail : accept_turn) (rest : List accept_turn)
    (hs : ∀ t ∈ succ, 0 ≤ t.client_fd) (hf : fail.client_fd < 0) :
    ∃ tr, accept_handler listen_fd (succ ++ fail :: rest) = some (PROTON_OK, tr, rest) ∧
      tr = succ.flatMap (fun t =>
          [action.accept listen_fd, action.set_nonblocking t.client_fd,
            action.connection_create t.client_fd] ++
          (if t.conn_created = true then [action.event_add t.client_fd]
           else [action.log_error, action.close t.client_fd])) ++
        (action.accept listen_fd ::
          (if fail.errno = EAGAIN ∨ fail.errno = EWOULDBLOCK then [] else [action.log_error])) ∧
      registered_fds tr = (succ.filter fun t => t.conn_created).map accept_turn.client_fd ∧
      (registered_fds tr).length = (succ.filter fun t => t.conn_created).length ∧
      closed_fds tr = (succ.filter fun t => !t.conn_created).map accept_turn.client_fd := by
  refine ⟨_, accept_handler_drain listen_fd succ fail rest hs hf, rfl, ?_, ?_, ?_⟩
  · unfold registered_fds
    rw [List.filterMap_append]
    have h1 := registered_fds_segments listen_fd succ
    have h2 := (fds_tail listen_fd (fail.errno = EAGAIN ∨ fail.errno = EWOULDBLOCK)).2.2.1
    unfold registered_fds at h1 h2
    rw [h1, h2, List.append_nil]
  · unfold registered_fds
    rw [List.filterMap_append]
    have h1 := registered_fds_segments listen_fd succ
    have h2 := (fds_tail listen_fd (fail.errno = EAGAIN ∨ fail.errno = EWOULDBLOCK)).2.2.1
    unfold registered_fds at h1 h2
    rw [h1, h2, List.append_nil, List.length_map]
  · unfold closed_fds
    rw [List.filterMap_append]
    have h1 := closed_fds_segments listen_fd succ
    have h2 := (fds_tail listen_fd (fail.errno = EAGAIN ∨ fail.errno = EWOULDBLOCK)).2.2.2
    unfold closed_fds at h1 h2
    rw [h1, h2, List.append_nil]

theorem accept_registers_or_closes_witness :
    ∃ tr, accept_handler 3
        ([{ client_fd := 5, errno := 0, conn_created := true },
          { client_fd := 6, errno := 0, conn_created := false },
          { client_fd := 6, errno := 0, conn_created := true }] ++
          { client_fd := -1, errno := 24, conn_created := false } :: []) =
        some (PROTON_OK, tr, []) ∧
      tr = [action.accept 3, action.set_nonblocking 5, action.connection_create 5,
            action.event_add 5,
            action.accept 3, action.set_nonblocking 6, action.connection_create 6,
            action.log_error, action.close 6,
            action.accept 3, action.set_nonblocking 6, action.connection_create 6,
            action.event_add 6,
            action.accept 3, action.log_error] ∧
      registered_fds tr = [5, 6] ∧ (registered_fds tr).length = 2 ∧ closed_fds tr = [6] :=
  accept_registers_or_closes 3
    [{ client_fd := 5, errno := 0, conn_created := true },
      { client_fd := 6, errno := 0, conn_created := false },
      { client_fd := 6, errno := 0, conn_created := true }]
    { client_fd := -1, errno := 24, conn_created := false } [] (by decide) (by decide)

/-! ## Properties of the worker -/

/-- The accept handler never evaluates the loop condition of the worker. -/
theorem accept_handler_no_read_quit (listen_fd : Int) (b : Bool) (script : List accept_turn) :
    ∀ r, accept_handler listen_fd script = some r → action.read_quit b ∉ r.2.1 := by
  induction script with
  | nil => intro r h; simp [accept_handler] at h
  | cons t ts ih =>
    intro r h
    by_cases hf : t.client_fd < 0
    · rw [accept_handler_fail listen_fd t ts hf] at h
      cases h
      split_ifs <;> simp
    · rw [accept_handler_ok listen_fd t ts (not_lt.1 hf)] at h
      cases hr : accept_handler listen_fd ts with
      | none => simp [hr] at h
      | some r0 =>
        rw [hr] at h
        cases h
        have := ih r0 hr
        cases hc : t.conn_created <;> simp [accepted_segment, hc, this]

/-- One dispatch never evaluates the loop condition of the worker. -/
theorem proton_event_process_no_read_quit (listen_fd : Int) (b : Bool) (it : iteration)
    (tr : List action) (h : proton_event_process listen_fd it = some tr) :
    action.read_quit b ∉ tr := by
  unfold proton_event_process at h
  split_ifs at h with hr
  · cases ha : accept_handler listen_fd it.accepts with
    | none => simp [ha] at h
    | some r =>
      rw [ha] at h
      cases h
      have := accept_handler_no_read_quit listen_fd b it.accepts r ha
      simp [this]
  · cases h
    simp

/-- A list with the element `x` after a prefix that does not contain `x`. -/
theorem split_after_head {α : Type} {x : α} {a b pre post : List α} (hx : x ∉ a)
    (h : pre ++ x :: post = a ++ b) : ∃ mid, pre = a ++ mid ∧ b = mid ++ x :: post := by
  induction a generalizing pre with
  | nil => exact ⟨pre, rfl, h.symm⟩
  | cons y ys ih =>
    cases pre with
    | nil =>
      simp only [List.nil_append, List.cons_append, List.cons.injEq] at h
      exact absurd (by rw [h.1]; simp) hx
    | cons p ps =>
      simp only [List.cons_append, List.cons.injEq] at h
      obtain ⟨mid, h1, h2⟩ := ih (fun hm => hx (by simp [hm])) h.2
      exact ⟨mid, by rw [h.1, h1]; rfl, h2⟩

/-- In the calls of a dispatch loop that returns, the loop condition is seen
true only once, and what follows is the cleanup; the status is then 0. -/
theorem worker_loop_after_quit (listen_fd : Int) (turns : List iteration) :
    ∀ (flags : signal_flags) (status : Int) (pre post : List action),
      worker_loop listen_fd flags turns = some (status, pre ++ action.read_quit true :: post) →
      status = 0 ∧ post = worker_cleanup listen_fd := by
  induction turns with
  | nil => intro flags status pre post h; simp [worker_loop] at h
  | cons it rest ih =>
    intro flags status pre post h
    unfold worker_loop at h
    unfold loop_turn at h
    dsimp only at h
    by_cases hq : (deliver it.signals flags).proton_quit ≠ 0
    · rw [if_pos hq] at h
      simp only [Option.some.injEq, Prod.mk.injEq] at h
      obtain ⟨h0, h1⟩ := h
      refine ⟨h0.symm, ?_⟩
      cases pre with
      | nil => simpa using h1.symm
      | cons p ps =>
        simp only [List.cons_append, List.cons.injEq] at h1
        have : action.read_quit true ∈ worker_cleanup listen_fd := by
          rw [h1.2]; simp
        simp [worker_cleanup] at this
    · rw [if_neg hq] at h
      cases he : proton_event_process listen_fd it with
      | none => simp [he] at h
      | some tr =>
        have hn := proton_event_process_no_read_quit listen_fd true it tr he
        rw [he] at h
        dsimp only at h
        split_ifs at h with herr
        · simp only [Option.some.injEq, Prod.mk.injEq] at h
          have : action.read_quit true ∈
              action.read_quit false :: (tr ++ action.log_error :: worker_cleanup listen_fd) := by
            rw [h.2]; simp
          simp [worker_cleanup, hn] at this
        · dsimp only at h
          cases hw : worker_loop listen_fd (deliver it.signals flags) rest with
          | none => simp [hw] at h
          | some w =>
            rw [hw] at h
            simp only [Option.map_some', Option.some.injEq, Prod.mk.injEq] at h
            obtain ⟨h0, h1⟩ := h
            have hx : action.read_quit true ∉ action.read_quit false :: tr := by simp [hn]
            obtain ⟨mid, _, h2⟩ := split_after_head hx h1.symm
            have := ih (deliver it.signals flags) w.1 mid post (by rw [hw, ← h2])
            exact ⟨h0 ▸ this.1, this.2⟩

/-- The set-up of the listening socket never evaluates the loop condition. -/
theorem create_listen_socket_no_read_quit (env : socket_env) (port : Int) (b : Bool) :
    action.read_quit b ∉ (create_listen_socket env port).2 := by
  unfold create_listen_socket
  dsimp only
  split_ifs <;> simp

/-- The set-up of the listening socket registers nothing and dispatches nothing;
when it succeeds it returns the descriptor of `socket` and closes nothing. -/
theorem create_listen_socket_trace (env : socket_env) (port : Int) :
    registered_fds (create_listen_socket env port).2 = [] ∧
    action.event_process ∉ (create_listen_socket env port).2 ∧
    (0 ≤ (create_listen_socket env port).1 →
      (create_listen_socket env port).1 = env.socket_ret ∧
      closed_fds (create_listen_socket env port).2 = []) := by
  unfold create_listen_socket
  dsimp only
  split_ifs <;> simp [registered_fds, closed_fds]

/-- C7, as stated, fails: with three connections (descriptors 5, 6, 7) accepted and
still registered, the worker that sees `proton_quit` set makes no further dispatch
call; it goes straight to the cleanup and returns 0. -/
theorem graceful_drain_counterexample :
    proton_worker_process three_connections_then_quit default_config =
      some (0,
        three_connections_calls ++
        action.read_quit true ::
        [action.log_info, action.event_destroy 3, action.event_loop_destroy, action.close 3]) ∧
    open_connections 3
        three_connections_calls = [5, 6, 7] ∧
    action.event_process ∉
      [action.log_info, action.event_destroy 3, action.event_loop_destroy, action.close 3] := by
  refine ⟨?_, ?_, ?_⟩ <;> decide

/-- C7, amended: when the loop condition of `proton_worker_process` sees
`proton_quit` set, the worker makes no further dispatch call, whatever connections
are still registered: it logs, destroys the listening event and the event loop,
closes the listening descriptor and returns 0.  This holds at every turn of the loop,
and in every returning run the calls after the observation are exactly those four. -/
theorem quit_stops_dispatch :
    (∀ (listen_fd : Int) (flags : signal_flags) (it : iteration) (rest : List iteration),
      (deliver it.signals flags).proton_quit ≠ 0 →
      worker_loop listen_fd flags (it :: rest) =
        some (0, [action.read_quit true, action.log_info, action.event_destroy listen_fd,
          action.event_loop_destroy, action.close listen_fd])) ∧
    (∀ (env : worker_env) (config : proton_config_t) (status : Int) (pre post : List action),
      proton_worker_process env config = some (status, pre ++ action.read_quit true :: post) →
      status = 0 ∧
      post = [action.log_info, action.event_destroy env.sock.socket_ret,
        action.event_loop_destroy, action.close env.sock.socket_ret] ∧
      action.event_process ∉ post) := by
  constructor
  · intro listen_fd flags it rest hq
    unfold worker_loop loop_turn
    dsimp only
    rw [if_pos hq]
    rfl
  · intro env config status pre post h
    unfold proton_worker_process at h
    dsimp only at h
    have hs := create_listen_socket_no_read_quit env.sock config.listen_port true
    have ht := create_listen_socket_trace env.sock config.listen_port
    split_ifs at h with h1 h2
    · simp only [Option.some.injEq, Prod.mk.injEq] at h
      exact absurd (by rw [h.2]; simp) hs
    · simp only [Option.some.injEq, Prod.mk.injEq] at h
      have : action.read_quit true ∈ (create_listen_socket env.sock config.listen_port).2 ++
          [action.event_loop_create config.worker_connections, action.log_error,
            action.close (create_listen_socket env.sock config.listen_port).1] := by
        rw [h.2]; simp
      simp [hs] at this
    · cases hw : worker_loop (create_listen_socket env.sock config.listen_port).1 env.flags
          env.turns with
      | none => simp [hw] at h
      | some w =>
        rw [hw] at h
        simp only [Option.map_some', Option.some.injEq, Prod.mk.injEq] at h
        obtain ⟨h0, h3⟩ := h
        have hx : action.read_quit true ∉
            (create_listen_socket env.sock config.listen_port).2 ++
              [action.event_loop_create config.worker_connections,
                action.event_create (create_listen_socket env.sock config.listen_port).1,
                action.event_add (create_listen_socket env.sock config.listen_port).1,
                action.log_info] := by
          simp [hs]
        obtain ⟨mid, _, h4⟩ := split_after_head hx h3.symm
        have h5 := worker_loop_after_quit _ env.turns env.flags w.1 mid post (by rw [hw, ← h4])
        have h6 := (ht.2.2 (not_lt.1 h1)).1
        rw [h6] at h5
        refine ⟨h0 ▸ h5.1, h5.2, ?_⟩
        rw [h5.2]
        simp [worker_cleanup]

theorem quit_stops_dispatch_witness :
    worker_loop 3 { proton_quit := 0, proton_reload := 0 }
        ({ signals := [15], listen_ready := true, accepts := [], closed := [],
           ret := 0, errno := 0 } :: []) =
      some (0, [action.read_quit true, action.log_info, action.event_destroy 3,
        action.event_loop_destroy, action.close 3]) ∧
    ((0 : Int) = 0 ∧
      [action.log_info, action.event_destroy 3, action.event_loop_destroy, action.close 3] =
        [action.log_info, action.event_destroy three_connections_then_quit.sock.socket_ret,
          action.event_loop_destroy, action.close three_connections_then_quit.sock.socket_ret] ∧
      action.event_process ∉
        [action.log_info, action.event_destroy 3, action.event_loop_destroy, action.close 3]) :=
  ⟨quit_stops_dispatch.1 3 _ _ [] (by decide),
   quit_stops_dispatch.2 three_connections_then_quit default_config 0 three_connections_calls
     [action.log_info, action.event_destroy 3, action.event_loop_destroy, action.close 3]
     (by decide)⟩

/-- C8: when `create_listen_socket` fails, or succeeds while
`proton_event_loop_create` returns no event loop, `proton_worker_process` returns 1;
no event has been registered and no dispatch call made; in the second case the
listening descriptor is closed exactly once, as the last call, and nothing else is
closed. -/
theorem worker_construction_failure (env : worker_env) (config : proton_config_t) :
    ((create_listen_socket env.sock config.listen_port).1 < 0 →
      ∃ tr, proton_worker_process env config = some (1, tr) ∧
        registered_fds tr = [] ∧ action.event_process ∉ tr) ∧
    (0 ≤ (create_listen_socket env.sock config.listen_port).1 → env.loop_created = false →
      ∃ tr, proton_worker_process env config = some (1, tr) ∧
        registered_fds tr = [] ∧ action.event_process ∉ tr ∧
        closed_fds tr = [env.sock.socket_ret] ∧
        tr.getLast? = some (action.close env.sock.socket_ret)) := by
  have ht := create_listen_socket_trace env.sock config.listen_port
  constructor
  · intro h
    refine ⟨(create_listen_socket env.sock config.listen_port).2, ?_, ht.1, ht.2.1⟩
    unfold proton_worker_process
    dsimp only
    rw [if_pos h]
  · intro h hl
    obtain ⟨h1, h2⟩ := ht.2.2 h
    refine ⟨(create_listen_socket env.sock config.listen_port).2 ++
      [action.event_loop_create config.worker_connections, action.log_error,
        action.close env.sock.socket_ret], ?_, ?_, ?_, ?_, ?_⟩
    · unfold proton_worker_process
      dsimp only
      rw [if_neg (not_lt.2 h), hl, h1]
      rfl
    · have := ht.1
      unfold registered_fds at this ⊢
      rw [List.filterMap_append, this]
      rfl
    · simp [ht.2.1]
    · unfold closed_fds at h2 ⊢
      rw [List.filterMap_append, h2]
      rfl
    · simp

theorem worker_construction_failure_witness :
    (∃ tr, proton_worker_process
        { sock := { socket_ret := 3, bind_ret := -1, listen_ret := 0, getfl_ret := 0,
                    setfl_ret := 0 },
          loop_created := true, flags := { proton_quit := 0, proton_reload := 0 },
          turns := [] } default_config = some (1, tr) ∧
      registered_fds tr = [] ∧ action.event_process ∉ tr) ∧
    (∃ tr, proton_worker_process
        { sock := { socket_ret := 3, bind_ret := 0, listen_ret := 0, getfl_ret := 0,
                    setfl_ret := 0 },
          loop_created := false, flags := { proton_quit := 0, proton_reload := 0 },
          turns := [] } default_config = some (1, tr) ∧
      registered_fds tr = [] ∧ action.event_process ∉ tr ∧
      closed_fds tr = [3] ∧ tr.getLast? = some (action.close 3)) :=
  ⟨(worker_construction_failure _ default_config).1 (by decide),
   (worker_construction_failure _ default_config).2 (by decide) rfl⟩

end Proton
